import Mathlib

/-!
Verification of the file-tree materialization engine in
`build_tools/_therock_utils/pattern_match.py`.

The development shallowly embeds:
* `RecursiveGlobPattern.__init__` — the glob-to-regex compilation pipeline
  (Python `re.escape` followed by five `str.replace` passes), over `List Char`;
* a matcher (`reMatch`) for the regular-expression dialect actually produced by
  that pipeline, following Python `re` semantics for its constructs
  (`^`, `$` (which also matches before one trailing newline), `\c`, `[^/]*`,
  `(.*/)?`, `(/.*)?`, with `.` never matching a newline);
* `MatchPredicate.matches`;
* `PatternMatcher.add_basedir` / `add_entry` (over a model of a scanned tree);
* `PatternMatcher._rmtree_with_retry` (over a model of per-attempt outcomes);
* `PatternMatcher._copy_regular_file`, `_copy_symlink`, and
  `_copy_preserving_hardlink_groups` (as filesystem-operation traces / explicit
  state passing over an inode model).
-/

/-- The characters escaped by Python's `re.escape` (the CPython 3.7+ set
`()[]\x7b\x7d?*+-|^$\\.&~# \t\n\r\v\f`). -/
def specialChars : List Char :=
  ['(', ')', '[', ']', '\x7b', '\x7d', '?', '*', '+', '-', '|', '^', '$',
   '\\', '.', '&', '~', '#', ' ', '\t', '\n', '\r', '\x0b', '\x0c']

/-- Whether `re.escape` escapes the character `c`. -/
def isSpecial (c : Char) : Bool := specialChars.contains c

/-- `re.escape` acting on a single character. -/
def escChar (c : Char) : List Char := if isSpecial c then ['\\', c] else [c]

/-- Python `re.escape` over a glob, as a character list. -/
def reEscape (g : List Char) : List Char := (g.map escChar).flatten

/-- Fueled core of Python `str.replace`: replace every non-overlapping
occurrence of `pat` by `rep`, scanning left to right; replacement text is not
rescanned.  With fuel at least the length of the subject the fuel never runs
out. -/
def listReplaceF (pat rep : List Char) : Nat → List Char → List Char
  | 0, s => s
  | _, [] => []
  | f + 1, c :: cs =>
    if !pat.isEmpty && pat.isPrefixOf (c :: cs) then
      rep ++ listReplaceF pat rep f (cs.drop (pat.length - 1))
    else
      c :: listReplaceF pat rep f cs

/-- Python `str.replace` (for the non-empty needles used by the pipeline). -/
def listReplace (pat rep s : List Char) : List Char :=
  listReplaceF pat rep s.length s

/-- Needle of the first pipeline pass: the text `/\*\*/`. -/
def needle1 : List Char := ['/', '\\', '*', '\\', '*', '/']

/-- Replacement of the first pipeline pass: the text `/(.*/)?`. -/
def repl1 : List Char := ['/', '(', '.', '*', '/', ')', '?']

/-- Needle of the second pipeline pass: the text `^\*\*/`. -/
def needle2 : List Char := ['^', '\\', '*', '\\', '*', '/']

/-- Replacement of the second pipeline pass: the text `^(.*/)?`. -/
def repl2 : List Char := ['^', '(', '.', '*', '/', ')', '?']

/-- Needle of the third pipeline pass: the text `/\*\*$`. -/
def needle3 : List Char := ['/', '\\', '*', '\\', '*', '$']

/-- Replacement of the third pipeline pass: the text `(/.*)?$`. -/
def repl3 : List Char := ['(', '/', '.', '*', ')', '?', '$']

/-- Needle of the fourth pipeline pass: the text `\*`. -/
def needle4 : List Char := ['\\', '*']

/-- Needle of the fifth pipeline pass: the text `\?`. -/
def needle5 : List Char := ['\\', '?']

/-- Replacement of the fourth and fifth passes: the text `[^/]*`. -/
def repl45 : List Char := ['[', '^', '/', ']', '*']

/-- Regex fragment `(.*/)?` (optional run of directories). -/
def grpDirs : List Char := ['(', '.', '*', '/', ')', '?']

/-- Regex fragment `(/.*)?` (optional slash plus anything). -/
def grpSlash : List Char := ['(', '/', '.', '*', ')', '?']

/-- `RecursiveGlobPattern.__init__`: build the regex source text
`^…$` from a glob via `re.escape` and the five `str.replace` passes. -/
def compilePattern (glob : String) : List Char :=
  listReplace needle5 repl45
    (listReplace needle4 repl45
      (listReplace needle3 repl3
        (listReplace needle2 repl2
          (listReplace needle1 repl1 ('^' :: reEscape glob.toList ++ ['$'])))))

/-- Fueled matcher for the regex dialect produced by `compilePattern`,
with Python `re.match` semantics for its constructs.  Arguments: fuel,
remaining pattern text, remaining subject, and whether the current subject
position is the start of the string (for `^`).  An exhausted pattern means
success (`re.match` is a prefix match; the produced patterns end in `$`).
`$` matches at the end of the subject or just before one trailing newline;
`.` matches anything except a newline; `[^/]` matches anything except `/`. -/
def reMatchF : Nat → List Char → List Char → Bool → Bool
  | 0, _, _, _ => false
  | f + 1, pat, p, b =>
    if grpDirs.isPrefixOf pat then
      reMatchF f (pat.drop 6) p b || reMatchF f ('.' :: '*' :: '/' :: pat.drop 6) p b
    else if grpSlash.isPrefixOf pat then
      reMatchF f (pat.drop 6) p b ||
        (match p with
         | d :: p2 => (d == '/') && reMatchF f ('.' :: '*' :: pat.drop 6) p2 false
         | [] => false)
    else if repl45.isPrefixOf pat then
      reMatchF f (pat.drop 5) p b ||
        (match p with
         | d :: p2 => !(d == '/') && reMatchF f pat p2 false
         | [] => false)
    else if ['.', '*'].isPrefixOf pat then
      reMatchF f (pat.drop 2) p b ||
        (match p with
         | d :: p2 => !(d == '\n') && reMatchF f pat p2 false
         | [] => false)
    else
      match pat with
      | [] => true
      | c :: rest =>
        if c == '\\' then
          match rest with
          | c2 :: rest2 =>
            (match p with
             | d :: p2 => (d == c2) && reMatchF f rest2 p2 false
             | [] => false)
          | [] =>
            (match p with
             | d :: p2 => (d == c) && reMatchF f [] p2 false
             | [] => false)
        else if c == '^' then b && reMatchF f rest p b
        else if c == '$' then (p.isEmpty || p == ['\n']) && reMatchF f rest p b
        else
          (match p with
           | d :: p2 => (d == c) && reMatchF f rest p2 false
           | [] => false)

/-- Fuel that always suffices for `reMatchF` (the pair
(subject length, pattern length) decreases lexicographically at each step and
the pattern never grows). -/
def reMatchFuel (pat p : List Char) : Nat :=
  p.length * (pat.length + 1) + pat.length + 1

/-- Matching a regex source text against a subject, from the start. -/
def reMatch (pat p : List Char) (b : Bool) : Bool :=
  reMatchF (reMatchFuel pat p) pat p b

/-- `RecursiveGlobPattern`: the original glob and its compiled pattern text. -/
structure RecursiveGlobPattern where
  glob : String
  pattern : List Char

/-- `RecursiveGlobPattern.__init__`. -/
def RecursiveGlobPattern.ofGlob (g : String) : RecursiveGlobPattern :=
  ⟨g, compilePattern g⟩

/-- `RecursiveGlobPattern.matches` (the `DirEntry` argument is unused by the
source and omitted). -/
def RecursiveGlobPattern.rgpMatches (rp : RecursiveGlobPattern) (relpath : String) : Bool :=
  reMatch rp.pattern relpath.toList true

/-- Matching one glob against one relative path, through the full pipeline. -/
def globMatches (glob relpath : String) : Bool :=
  (RecursiveGlobPattern.ofGlob glob).rgpMatches relpath

/-- Whether a glob contains two adjacent `*` characters (a `**` form). -/
def hasDoubleStar : List Char → Bool
  | a :: b :: rest => (a == '*' && b == '*') || hasDoubleStar (b :: rest)
  | _ => false

/-- Whether a character is one of the glob wildcards `*`, `?`. -/
def isWild (c : Char) : Bool := c == '*' || c == '?'

/-- No `?` in the glob is adjacent to a `*` or to another `?` (so replacing
`?` by `*` cannot create or destroy a `**` form). -/
def qIsolated : List Char → Bool
  | a :: b :: rest => !((a == '?' || b == '?') && isWild a && isWild b) && qIsolated (b :: rest)
  | _ => true

/-- The glob with each `?` replaced by `*` (character-wise). -/
def replaceQmark (glob : String) : String :=
  String.mk (glob.toList.map (fun c => if c = '?' then '*' else c))

/-- Fueled spec-side matcher: `path` equals the glob with each `*`/`?`
expanded to `[^/]*` at the same segment positions — literal characters must
match exactly, and each wildcard matches a possibly empty run of
non-separator characters.  The end of the path must coincide exactly with the
end of the glob. -/
def specExpandF : Nat → List Char → List Char → Bool
  | 0, _, _ => false
  | _ + 1, [], p => p.isEmpty
  | f + 1, c :: g, p =>
    if isWild c then
      specExpandF f g p ||
        (match p with
         | d :: p2 => !(d == '/') && specExpandF f (c :: g) p2
         | [] => false)
    else
      match p with
      | d :: p2 => (d == c) && specExpandF f g p2
      | [] => false

/-- Spec-side reading of the claim "`matches(p)` is true iff `p` equals the
glob with `*`/`?` expanded to `[^/]*` at the same segment positions". -/
def specExpand (g p : List Char) : Bool :=
  specExpandF (g.length + p.length + 1) g p

/-- String-level wrapper of `specExpand`. -/
def specGlobEquals (glob path : String) : Bool :=
  specExpand glob.toList path.toList

/-- Fueled semantic matcher for the token sequence a `**`-free glob compiles
to: like `specExpandF`, except that the final `$` of the compiled pattern also
accepts one trailing newline (Python `$` semantics). -/
def tokensMatchF : Nat → List Char → List Char → Bool
  | 0, _, _ => false
  | _ + 1, [], p => p.isEmpty || p == ['\n']
  | f + 1, c :: g, p =>
    if isWild c then
      tokensMatchF f g p ||
        (match p with
         | d :: p2 => !(d == '/') && tokensMatchF f (c :: g) p2
         | [] => false)
    else
      match p with
      | d :: p2 => (d == c) && tokensMatchF f g p2
      | [] => false

/-- Semantics of the compiled tokens of a `**`-free glob. -/
def tokensMatch (g p : List Char) : Bool :=
  tokensMatchF (g.length + p.length + 1) g p

/-- Per-character expansion performed by the fourth pipeline pass (`\*` to
`[^/]*`) on an escaped glob character. -/
def starChar (c : Char) : List Char := if c == '*' then repl45 else escChar c

/-- The escaped glob after the fourth pass, character by character. -/
def starToks (g : List Char) : List Char := (g.map starChar).flatten

/-- Per-character expansion performed by the fourth and fifth passes together
(`\*` and `\?` to `[^/]*`) on an escaped glob character. -/
def tokChar (c : Char) : List Char := if isWild c then repl45 else escChar c

/-- The escaped glob after all five passes, character by character (valid when
the first three passes do not fire). -/
def expandToks (g : List Char) : List Char := (g.map tokChar).flatten

/-- `MatchPredicate`: three ordered lists of glob patterns. -/
structure MatchPredicate where
  includes : List String
  excludes : List String
  force_includes : List String

/-- `MatchPredicate.matches`: force-includes first (any match wins
immediately), then the include whitelist (only when non-empty), then the
excludes, else accepted. -/
def MatchPredicate.mpMatches (mp : MatchPredicate) (matchPath : String) : Bool :=
  if mp.force_includes.any (fun g => globMatches g matchPath) then true
  else if !mp.includes.isEmpty && !mp.includes.any (fun g => globMatches g matchPath) then false
  else if mp.excludes.any (fun g => globMatches g matchPath) then false
  else true

/-- Python `dict` assignment `d[k] = v`: overwrite in place if the key is
present, else append. -/
def dictInsert {κ α : Type} [DecidableEq κ] (k : κ) (v : α) : List (κ × α) → List (κ × α)
  | [] => [(k, v)]
  | (k2, v2) :: rest => if k2 = k then (k, v) :: rest else (k2, v2) :: dictInsert k v rest

/-- Python `dict` lookup `d.get(k)`. -/
def dictGet {κ α : Type} [DecidableEq κ] (k : κ) : List (κ × α) → Option α
  | [] => none
  | (k2, v2) :: rest => if k2 = k then some v2 else dictGet k rest

/-- A node of a source tree as seen by `scan_children`: a regular file, a
symlink (never traversed into), or a directory with named children. -/
inductive FsNode where
  | file (id : Nat)
  | symlink (target : String)
  | dir (children : List (String × FsNode))

mutual

/-- `PatternMatcher.add_basedir.scan_children`: depth-first pre-order scan of
a children list, producing `(relpath, entry)` pairs in assignment order
(a directory is recorded before its children). -/
def scanChildren : List (String × FsNode) → String → List (String × FsNode)
  | [], _ => []
  | (name, node) :: rest, pre => scanNode name node pre ++ scanChildren rest pre

/-- Scan of one directory entry: record it, and recurse when it is a
directory (symlinks are not followed). -/
def scanNode : String → FsNode → String → List (String × FsNode)
  | name, .dir ch, pre => (pre ++ name, .dir ch) :: scanChildren ch (pre ++ name ++ "/")
  | name, node, pre => [(pre ++ name, node)]

end

/-- `PatternMatcher.add_basedir`: scan a base directory (given by its
children) and assign every produced `(relpath, entry)` pair into the index in
scan order. -/
def addBasedir (all : List (String × FsNode)) (basedir : List (String × FsNode)) :
    List (String × FsNode) :=
  (scanChildren basedir ("")).foldl (fun d e => dictInsert e.1 e.2 d) all

/-- `PatternMatcher.add_entry`. -/
def addEntry (all : List (String × FsNode)) (relpath : String) (entry : FsNode) :
    List (String × FsNode) :=
  dictInsert relpath entry all

/-- `PatternMatcher.max_attempts`. -/
def maxAttempts : Nat := 5

/-- `PatternMatcher.retry_delay_seconds` (the Python float 0.2, modelled as
the rational it denotes). -/
def retryDelaySeconds : ℚ := 2 / 10

/-- Outcome of one `shutil.rmtree` attempt. -/
inductive RmtreeOutcome where
  | ok
  | permissionError
  | otherError
deriving DecidableEq

/-- Result of `PatternMatcher._rmtree_with_retry`: the tree was removed after
some number of attempts, or a `PermissionError` was re-raised after the last
attempt, or a different exception propagated immediately, or the loop fell
through (unreachable with the real attempt limit). -/
inductive RmtreeResult where
  | removed (attemptsUsed : Nat)
  | raisedPermission (attemptsUsed : Nat)
  | raisedOther (attemptsUsed : Nat)
  | fellThrough
deriving DecidableEq

/-- `PatternMatcher._rmtree_with_retry`'s loop from a given attempt index with
a given number of remaining iterations.  Returns the result together with the
list of `time.sleep` durations, in order.  A `PermissionError` sleeps
`delay * (attempt + 2)` and then either re-raises (on the last attempt) or
retries; any other exception propagates immediately; success returns. -/
def rmtreeLoop (outcome : Nat → RmtreeOutcome) (maxA : Nat) (delay : ℚ) :
    Nat → Nat → RmtreeResult × List ℚ
  | _, 0 => (.fellThrough, [])
  | attempt, r + 1 =>
    match outcome attempt with
    | .ok => (.removed (attempt + 1), [])
    | .otherError => (.raisedOther (attempt + 1), [])
    | .permissionError =>
      let w := delay * ((attempt : ℚ) + 2)
      if attempt = maxA - 1 then (.raisedPermission (attempt + 1), [w])
      else
        let next := rmtreeLoop outcome maxA delay (attempt + 1) r
        (next.1, w :: next.2)

/-- `PatternMatcher._rmtree_with_retry` with the class constants. -/
def rmtreeWithRetry (outcome : Nat → RmtreeOutcome) (delay : ℚ) : RmtreeResult × List ℚ :=
  rmtreeLoop outcome maxAttempts delay 0 maxAttempts

/-- Filesystem operations performed by the copy helpers. -/
inductive FileOp where
  | unlinkDest (dest : String)
  | mkdirParents (dest : String)
  | hardlinkFromSource (src dest : String)
  | plainCopy (src dest : String)
  | internalHardlink (prevDest dest : String)
  | makeSymlink (target : String) (dest : String)
deriving DecidableEq

/-- `PatternMatcher._copy_regular_file` as the list of filesystem operations
it performs.  `destStatIno` is `some i` when `destpath.exists()` and the
stat inode of the destination is `i` (Python `exists` and `stat` follow
symlinks); `copiedPrev` is the `copied_inodes` lookup used by the
hardlink-group-preserving strategy. -/
def copyRegularFileOps (alwaysCopy removeDest isWindows : Bool)
    (destStatIno : Option Nat) (srcIno : Nat) (destIsSymlink : Bool)
    (copiedPrev : Option String) (src dest : String) : List FileOp :=
  if !alwaysCopy && destStatIno == some srcIno then []
  else
    (if !removeDest && (destStatIno.isSome || destIsSymlink) then [.unlinkDest dest] else []) ++
    [.mkdirParents dest] ++
    (if !alwaysCopy then [.hardlinkFromSource src dest]
     else if isWindows then [.plainCopy src dest]
     else
       match copiedPrev with
       | some prev => [.internalHardlink prev dest]
       | none => [.plainCopy src dest])

/-- `PatternMatcher._copy_symlink` as the list of filesystem operations it
performs: optional unlink of an existing destination (only when
`remove_dest` is false), parent creation, then a new symlink carrying the
source link's unresolved target string. -/
def copySymlinkOps (srcTarget : String) (dest : String)
    (removeDest destExists destIsSymlink : Bool) : List FileOp :=
  (if !removeDest && (destExists || destIsSymlink) then [.unlinkDest dest] else []) ++
  [.mkdirParents dest, .makeSymlink srcTarget dest]

/-- An entry of the destination tree. -/
inductive DestEntry where
  | regular (ino : Nat)
  | linkedToSource (src : String)
  | symlinkEntry (target : String)
deriving DecidableEq

/-- Destination-tree state: the files present, plus a counter supplying the
fresh inode that `shutil.copy2` allocates for a newly created file (fresh
inodes are distinct from every inode below the counter). -/
structure DestState where
  entries : List (String × DestEntry)
  nextIno : Nat
deriving DecidableEq

/-- Remove a key (Python `os.unlink`). -/
def dictRemove {κ α : Type} [DecidableEq κ] (k : κ) : List (κ × α) → List (κ × α)
  | [] => []
  | (k2, v2) :: rest => if k2 = k then rest else (k2, v2) :: dictRemove k rest

/-- Effect of one filesystem operation on the destination tree. -/
def applyFileOp (st : DestState) : FileOp → DestState
  | .unlinkDest d => { st with entries := dictRemove d st.entries }
  | .mkdirParents _ => st
  | .hardlinkFromSource s d => { st with entries := dictInsert d (.linkedToSource s) st.entries }
  | .plainCopy _ d =>
    { st with entries := dictInsert d (.regular st.nextIno) st.entries
              nextIno := st.nextIno + 1 }
  | .internalHardlink prev d =>
    { st with entries :=
        dictInsert d ((dictGet prev st.entries).getD (.regular 0)) st.entries }
  | .makeSymlink t d => { st with entries := dictInsert d (.symlinkEntry t) st.entries }

/-- Effect of a list of filesystem operations, in order. -/
def applyFileOps (st : DestState) (ops : List FileOp) : DestState :=
  ops.foldl applyFileOp st

/-- One regular-file entry processed by `copy_to`: source path, destination
path, and the source `(st_dev, st_ino)` identity. -/
structure CopyEntry where
  srcPath : String
  destPath : String
  dev : Nat
  ino : Nat
deriving DecidableEq

/-- State threaded through `_copy_preserving_hardlink_groups` within one
`copy_to` call: the `copied_inodes` dict mapping a source `(st_dev, st_ino)`
key to the first destination path written for it, the inodes of the
destination files written so far, the fresh-inode counter used to model
`shutil.copy2` creating a brand-new destination inode, and the operation
trace. -/
structure HardlinkCopyState where
  copiedInodes : List ((Nat × Nat) × String)
  destIno : List (String × Nat)
  nextIno : Nat
  ops : List FileOp
deriving DecidableEq

/-- `_copy_preserving_hardlink_groups`: on the first encounter of a source
`(st_dev, st_ino)` key, copy (`shutil.copy2`, allocating a fresh destination
inode) and record the destination path under the key; on a later encounter,
`os.link` the new destination path to the recorded one, sharing its inode. -/
def copyPreservingHardlinkGroups (e : CopyEntry) (st : HardlinkCopyState) :
    HardlinkCopyState :=
  match dictGet (e.dev, e.ino) st.copiedInodes with
  | some prevDest =>
    { st with
      destIno := dictInsert e.destPath ((dictGet prevDest st.destIno).getD 0) st.destIno
      ops := st.ops ++ [.internalHardlink prevDest e.destPath] }
  | none =>
    { st with
      destIno := dictInsert e.destPath st.nextIno st.destIno
      nextIno := st.nextIno + 1
      copiedInodes := dictInsert (e.dev, e.ino) e.destPath st.copiedInodes
      ops := st.ops ++ [.plainCopy e.srcPath e.destPath] }

/-- The regular-file part of `copy_to` with `always_copy=true` on a
non-Windows host: fold the hardlink-group-preserving copy over the matched
entries, threading `copied_inodes`. -/
def copyAllPreservingGroups (es : List CopyEntry) (st : HardlinkCopyState) :
    HardlinkCopyState :=
  es.foldl (fun s e => copyPreservingHardlinkGroups e s) st

/-- Fresh initial state for one `copy_to` call; `startIno` is any inode
number strictly above every inode of the source tree. -/
def initialHardlinkCopyState (startIno : Nat) : HardlinkCopyState :=
  ⟨[], [], startIno, []⟩


/-! ## Fuel stability -/

/-! Blocks for comparing the pipeline on a glob and on its `?`-to-`*`
variant (used for claim C7): the escaped texts of the two globs differ only
in wildcard escape pairs, and each `str.replace` pass preserves that shape. -/

/-- A block of the escaped-glob text as it flows through the replace
pipeline: a single literal character, an escape pair `\c`, or the one pair
that differs between a glob and its `?`-to-`*` variant (`\?` on one side,
`\*` on the other). -/
inductive QItem where
  | litChar (c : Char)
  | escPair (c : Char)
  | subPair
deriving DecidableEq

/-- Projection of a block to its text on the side whose wildcard pair reads
`\qc` (`qc = '?'` for the original glob, `qc = '*'` for the variant). -/
def projQ (qc : Char) : QItem → List Char
  | QItem.litChar c => [c]
  | QItem.escPair c => ['\\', c]
  | QItem.subPair => ['\\', qc]

/-- Text of a block list on the side `qc`. -/
def flatQ (qc : Char) (items : List QItem) : List Char :=
  (items.map (projQ qc)).flatten

/-- Blocks reachable from escaping: no bare backslash, and `/` is never
escaped (it is not a regex special character). -/
def okItem : QItem → Bool
  | QItem.litChar c => !(c == '\\')
  | QItem.escPair c => !(c == '/')
  | QItem.subPair => true

/-- Adjacency discipline between consecutive blocks: the differing wildcard
pair is never adjacent to a star pair or to another differing pair (the
`?`-isolation condition), and an escaped backslash is never directly followed
by a bare `*` or `?` (which would misalign the `\*`/`\?` passes). -/
def okPair : QItem → QItem → Bool
  | QItem.subPair, QItem.subPair => false
  | QItem.subPair, QItem.escPair c => !(c == '*')
  | QItem.escPair c, QItem.subPair => !(c == '*')
  | QItem.escPair c, QItem.litChar d => !((c == '\\') && ((d == '*') || (d == '?')))
  | _, _ => true

/-- `okPair` against an optional following block (`none` = end of text). -/
def okPairO (a : QItem) : Option QItem → Bool
  | none => true
  | some b => okPair a b

/-- Well-formed block lists: every block and every adjacent pair is fine. -/
def itemsOK : List QItem → Bool
  | [] => true
  | a :: rest => okItem a && okPairO a rest.head? && itemsOK rest

/-- The block of a single glob character. -/
def itemOf (c : Char) : QItem :=
  if c == '?' then QItem.subPair
  else if isSpecial c then QItem.escPair c else QItem.litChar c

/-- Block decomposition of the anchored escaped glob `^…$`. -/
def globItems (g : List Char) : List QItem :=
  QItem.litChar '^' :: (g.map itemOf ++ [QItem.litChar '$'])

/-- Whether a block list starts with the tail of a `…\*\*X` window:
two star pairs and then the literal `X`. -/
def win3 (e : Char) : List QItem → Bool
  | QItem.escPair c1 :: QItem.escPair c2 :: QItem.litChar c3 :: _ =>
      c1 == '*' && c2 == '*' && c3 == e
  | _ => false

/-- `/(.*/)?` as blocks. -/
def repl1Items : List QItem :=
  [QItem.litChar '/', QItem.litChar '(', QItem.litChar '.', QItem.litChar '*',
   QItem.litChar '/', QItem.litChar ')', QItem.litChar '?']

/-- `^(.*/)?` as blocks. -/
def repl2Items : List QItem :=
  [QItem.litChar '^', QItem.litChar '(', QItem.litChar '.', QItem.litChar '*',
   QItem.litChar '/', QItem.litChar ')', QItem.litChar '?']

/-- `(.*/)?` (the tail of `repl2` after the `^` soaked into an escape pair)
as blocks. -/
def repl2TailItems : List QItem :=
  [QItem.litChar '(', QItem.litChar '.', QItem.litChar '*',
   QItem.litChar '/', QItem.litChar ')', QItem.litChar '?']

/-- `(/.*)?$` as blocks. -/
def repl3Items : List QItem :=
  [QItem.litChar '(', QItem.litChar '/', QItem.litChar '.', QItem.litChar '*',
   QItem.litChar ')', QItem.litChar '?', QItem.litChar '$']

/-- `[^/]*` as blocks. -/
def repl45Items : List QItem :=
  [QItem.litChar '[', QItem.litChar '^', QItem.litChar '/', QItem.litChar ']',
   QItem.litChar '*']

/-- Effect of the `\*` pass on one block of the side `qc`. -/
def item4 (qc : Char) : QItem → List QItem
  | QItem.litChar c => [QItem.litChar c]
  | QItem.escPair c => if c == '*' then repl45Items else [QItem.escPair c]
  | QItem.subPair => if qc == '*' then repl45Items else [QItem.subPair]

/-- The `\*` pass over a block list of the side `qc`. -/
def items4 (qc : Char) (items : List QItem) : List QItem :=
  (items.map (item4 qc)).flatten

/-- Effect of the `\?` pass on one block of the side `qc`. -/
def item5 (qc : Char) : QItem → List QItem
  | QItem.litChar c => [QItem.litChar c]
  | QItem.escPair c => if c == '?' then repl45Items else [QItem.escPair c]
  | QItem.subPair => if qc == '?' then repl45Items else [QItem.subPair]

/-- The `\?` pass over a block list of the side `qc`. -/
def items5 (qc : Char) (items : List QItem) : List QItem :=
  (items.map (item5 qc)).flatten

theorem listReplaceF_eq (pat rep : List Char) :
    ∀ f g (s : List Char), s.length ≤ f → s.length ≤ g →
      listReplaceF pat rep f s = listReplaceF pat rep g s := by
  intro f
  induction f with
  | zero =>
    intro g s hf _
    have hs : s = [] := List.eq_nil_of_length_eq_zero (Nat.le_zero.mp hf)
    subst hs
    cases g <;> rfl
  | succ f ih =>
    intro g s hf hg
    cases s with
    | nil => cases g <;> rfl
    | cons c cs =>
      cases g with
      | zero => simp at hg
      | succ g =>
        simp only [listReplaceF]
        by_cases h : (!pat.isEmpty && pat.isPrefixOf (c :: cs)) = true
        · rw [if_pos h, if_pos h]
          have hlen : (cs.drop (pat.length - 1)).length ≤ cs.length := by
            simp [List.length_drop]
          have hcs : cs.length ≤ f := by simpa using Nat.le_of_succ_le_succ hf
          have hcs2 : cs.length ≤ g := by simpa using Nat.le_of_succ_le_succ hg
          rw [ih g _ (le_trans hlen hcs) (le_trans hlen hcs2)]
        · rw [if_neg h, if_neg h]
          have hcs : cs.length ≤ f := by simpa using Nat.le_of_succ_le_succ hf
          have hcs2 : cs.length ≤ g := by simpa using Nat.le_of_succ_le_succ hg
          rw [ih g _ hcs hcs2]

theorem listReplace_nil (pat rep : List Char) : listReplace pat rep [] = [] := rfl

theorem listReplace_cons (pat rep : List Char) (c : Char) (cs : List Char) :
    listReplace pat rep (c :: cs) =
      if !pat.isEmpty && pat.isPrefixOf (c :: cs) then
        rep ++ listReplace pat rep (cs.drop (pat.length - 1))
      else
        c :: listReplace pat rep cs := by
  unfold listReplace
  rw [show (c :: cs).length = cs.length + 1 from rfl]
  simp only [listReplaceF]
  by_cases h : (!pat.isEmpty && pat.isPrefixOf (c :: cs)) = true
  · rw [if_pos h, if_pos h]
    rw [listReplaceF_eq pat rep cs.length _ _ (by simp [List.length_drop]) le_rfl]
  · rw [if_neg h, if_neg h]

theorem reMatchFuel_lt_of (pat2 p2 pat p : List Char)
    (h1 : pat2.length ≤ pat.length) (h2 : p2.length ≤ p.length)
    (h3 : pat2.length < pat.length ∨ p2.length < p.length) :
    reMatchFuel pat2 p2 < reMatchFuel pat p := by
  unfold reMatchFuel
  rcases h3 with h3 | h3
  · have hm : p2.length * (pat2.length + 1) ≤ p.length * (pat.length + 1) :=
      Nat.mul_le_mul h2 (by omega)
    omega
  · obtain ⟨k, hk⟩ : ∃ k, p.length = k + 1 := ⟨p.length - 1, by omega⟩
    have h2k : p2.length ≤ k := by omega
    have hm : p2.length * (pat2.length + 1) ≤ k * (pat.length + 1) :=
      Nat.mul_le_mul h2k (by omega)
    rw [hk]
    have hx : (k + 1) * (pat.length + 1) = k * (pat.length + 1) + (pat.length + 1) := by ring
    omega


theorem reMatchF_eq : ∀ f g (pat p : List Char) (b : Bool),
    reMatchFuel pat p ≤ f → reMatchFuel pat p ≤ g →
    reMatchF f pat p b = reMatchF g pat p b := by
  intro f
  induction f with
  | zero =>
    intro g pat p b hf _
    exfalso
    unfold reMatchFuel at hf
    omega
  | succ f ih =>
    intro g pat p b hf hg
    cases g with
    | zero => exfalso; unfold reMatchFuel at hg; omega
    | succ g =>
      have ihg : ∀ (pat2 p2 : List Char) (b2 : Bool),
          reMatchFuel pat2 p2 < reMatchFuel pat p →
          reMatchF f pat2 p2 b2 = reMatchF g pat2 p2 b2 := by
        intro pat2 p2 b2 hlt
        exact ih g pat2 p2 b2 (by omega) (by omega)
      simp only [reMatchF]
      by_cases h1 : grpDirs.isPrefixOf pat = true
      · have hL : 6 ≤ pat.length := by
          have := (List.isPrefixOf_iff_prefix.mp h1).length_le
          simpa [grpDirs] using this
        rw [if_pos h1, if_pos h1]
        rw [ihg _ _ _ (reMatchFuel_lt_of _ _ _ _
              (by simp only [List.length_drop]; omega) le_rfl
              (Or.inl (by simp only [List.length_drop]; omega)))]
        rw [ihg ('.' :: '*' :: '/' :: pat.drop 6) p b
              (reMatchFuel_lt_of _ _ _ _
              (by simp only [List.length_cons, List.length_drop]; omega) le_rfl
              (Or.inl (by simp only [List.length_cons, List.length_drop]; omega)))]
      · rw [if_neg h1, if_neg h1]
        by_cases h2 : grpSlash.isPrefixOf pat = true
        · have hL : 6 ≤ pat.length := by
            have := (List.isPrefixOf_iff_prefix.mp h2).length_le
            simpa [grpSlash] using this
          rw [if_pos h2, if_pos h2]
          rw [ihg _ _ _ (reMatchFuel_lt_of _ _ _ _
                (by simp only [List.length_drop]; omega) le_rfl
                (Or.inl (by simp only [List.length_drop]; omega)))]
          cases p with
          | nil => rfl
          | cons d p2 =>
            dsimp only
            rw [ihg ('.' :: '*' :: pat.drop 6) p2 false
                  (reMatchFuel_lt_of _ _ _ _
                  (by simp only [List.length_cons, List.length_drop]; omega)
                  (by simp only [List.length_cons]; omega)
                  (Or.inr (by simp only [List.length_cons]; omega)))]
        · rw [if_neg h2, if_neg h2]
          by_cases h3 : repl45.isPrefixOf pat = true
          · have hL : 5 ≤ pat.length := by
              have := (List.isPrefixOf_iff_prefix.mp h3).length_le
              simpa [repl45] using this
            rw [if_pos h3, if_pos h3]
            rw [ihg _ _ _ (reMatchFuel_lt_of _ _ _ _
                  (by simp only [List.length_drop]; omega) le_rfl
                  (Or.inl (by simp only [List.length_drop]; omega)))]
            cases p with
            | nil => rfl
            | cons d p2 =>
              dsimp only
              rw [ihg pat p2 false
                    (reMatchFuel_lt_of _ _ _ _ le_rfl
                    (by simp only [List.length_cons]; omega)
                    (Or.inr (by simp only [List.length_cons]; omega)))]
          · rw [if_neg h3, if_neg h3]
            by_cases h4 : ['.', '*'].isPrefixOf pat = true
            · have hL : 2 ≤ pat.length := by
                have := (List.isPrefixOf_iff_prefix.mp h4).length_le
                simpa using this
              rw [if_pos h4, if_pos h4]
              rw [ihg _ _ _ (reMatchFuel_lt_of _ _ _ _
                    (by simp only [List.length_drop]; omega) le_rfl
                    (Or.inl (by simp only [List.length_drop]; omega)))]
              cases p with
              | nil => rfl
              | cons d p2 =>
                dsimp only
                rw [ihg pat p2 false
                      (reMatchFuel_lt_of _ _ _ _ le_rfl
                      (by simp only [List.length_cons]; omega)
                      (Or.inr (by simp only [List.length_cons]; omega)))]
            · rw [if_neg h4, if_neg h4]
              cases pat with
              | nil => rfl
              | cons c rest =>
                dsimp only
                by_cases hc : (c == '\\') = true
                · rw [if_pos hc, if_pos hc]
                  cases rest with
                  | nil =>
                    cases p with
                    | nil => rfl
                    | cons d p2 =>
                      dsimp only
                      rw [ihg [] p2 false
                            (reMatchFuel_lt_of _ _ _ _
                            (by simp only [List.length_cons, List.length_nil]; omega)
                            (by simp only [List.length_cons]; omega)
                            (Or.inr (by simp only [List.length_cons]; omega)))]
                  | cons c2 rest2 =>
                    cases p with
                    | nil => rfl
                    | cons d p2 =>
                      dsimp only
                      rw [ihg rest2 p2 false
                            (reMatchFuel_lt_of _ _ _ _
                            (by simp only [List.length_cons]; omega)
                            (by simp only [List.length_cons]; omega)
                            (Or.inr (by simp only [List.length_cons]; omega)))]
                · rw [if_neg hc, if_neg hc]
                  by_cases hcaret : (c == '^') = true
                  · rw [if_pos hcaret, if_pos hcaret]
                    rw [ihg rest p b
                          (reMatchFuel_lt_of _ _ _ _
                          (by simp only [List.length_cons]; omega) le_rfl
                          (Or.inl (by simp only [List.length_cons]; omega)))]
                  · rw [if_neg hcaret, if_neg hcaret]
                    by_cases hdollar : (c == '$') = true
                    · rw [if_pos hdollar, if_pos hdollar]
                      rw [ihg rest p b
                            (reMatchFuel_lt_of _ _ _ _
                            (by simp only [List.length_cons]; omega) le_rfl
                            (Or.inl (by simp only [List.length_cons]; omega)))]
                    · rw [if_neg hdollar, if_neg hdollar]
                      cases p with
                      | nil => rfl
                      | cons d p2 =>
                        dsimp only
                        rw [ihg rest p2 false
                              (reMatchFuel_lt_of _ _ _ _
                              (by simp only [List.length_cons]; omega)
                              (by simp only [List.length_cons]; omega)
                              (Or.inr (by simp only [List.length_cons]; omega)))]

theorem reMatch_eq_fuel (f : Nat) (pat p : List Char) (b : Bool)
    (h : reMatchFuel pat p ≤ f) : reMatchF f pat p b = reMatch pat p b :=
  reMatchF_eq f _ pat p b h le_rfl

theorem reMatch_unfold (pat p : List Char) (b : Bool) :
    reMatch pat p b =
      if grpDirs.isPrefixOf pat then
        reMatch (pat.drop 6) p b || reMatch ('.' :: '*' :: '/' :: pat.drop 6) p b
      else if grpSlash.isPrefixOf pat then
        reMatch (pat.drop 6) p b ||
          (match p with
           | d :: p2 => (d == '/') && reMatch ('.' :: '*' :: pat.drop 6) p2 false
           | [] => false)
      else if repl45.isPrefixOf pat then
        reMatch (pat.drop 5) p b ||
          (match p with
           | d :: p2 => !(d == '/') && reMatch pat p2 false
           | [] => false)
      else if ['.', '*'].isPrefixOf pat then
        reMatch (pat.drop 2) p b ||
          (match p with
           | d :: p2 => !(d == '\n') && reMatch pat p2 false
           | [] => false)
      else
        match pat with
        | [] => true
        | c :: rest =>
          if c == '\\' then
            match rest with
            | c2 :: rest2 =>
              (match p with
               | d :: p2 => (d == c2) && reMatch rest2 p2 false
               | [] => false)
            | [] =>
              (match p with
               | d :: p2 => (d == c) && reMatch [] p2 false
               | [] => false)
          else if c == '^' then b && reMatch rest p b
          else if c == '$' then (p.isEmpty || p == ['\n']) && reMatch rest p b
          else
            (match p with
             | d :: p2 => (d == c) && reMatch rest p2 false
             | [] => false) := by
  have step : ∀ (pat2 p2 : List Char) (b2 : Bool),
      reMatchFuel pat2 p2 < reMatchFuel pat p →
      reMatchF (p.length * (pat.length + 1) + pat.length) pat2 p2 b2 = reMatch pat2 p2 b2 := by
    intro pat2 p2 b2 hlt
    exact reMatchF_eq _ _ _ _ _ (by unfold reMatchFuel at hlt ⊢; omega) le_rfl
  conv_lhs => rw [reMatch]
  simp only [reMatchFuel, reMatchF]
  by_cases h1 : grpDirs.isPrefixOf pat = true
  · have hL : 6 ≤ pat.length := by
      have := (List.isPrefixOf_iff_prefix.mp h1).length_le
      simpa [grpDirs] using this
    rw [if_pos h1, if_pos h1]
    rw [step _ _ _ (reMatchFuel_lt_of _ _ _ _
          (by simp only [List.length_drop]; omega) le_rfl
          (Or.inl (by simp only [List.length_drop]; omega)))]
    rw [step ('.' :: '*' :: '/' :: pat.drop 6) p b
          (reMatchFuel_lt_of _ _ _ _
          (by simp only [List.length_cons, List.length_drop]; omega) le_rfl
          (Or.inl (by simp only [List.length_cons, List.length_drop]; omega)))]
  · rw [if_neg h1, if_neg h1]
    by_cases h2 : grpSlash.isPrefixOf pat = true
    · have hL : 6 ≤ pat.length := by
        have := (List.isPrefixOf_iff_prefix.mp h2).length_le
        simpa [grpSlash] using this
      rw [if_pos h2, if_pos h2]
      rw [step _ _ _ (reMatchFuel_lt_of _ _ _ _
            (by simp only [List.length_drop]; omega) le_rfl
            (Or.inl (by simp only [List.length_drop]; omega)))]
      cases p with
      | nil => rfl
      | cons d p2 =>
        dsimp only
        rw [step ('.' :: '*' :: pat.drop 6) p2 false
              (reMatchFuel_lt_of _ _ _ _
              (by simp only [List.length_cons, List.length_drop]; omega)
              (by simp only [List.length_cons]; omega)
              (Or.inr (by simp only [List.length_cons]; omega)))]
    · rw [if_neg h2, if_neg h2]
      by_cases h3 : repl45.isPrefixOf pat = true
      · have hL : 5 ≤ pat.length := by
          have := (List.isPrefixOf_iff_prefix.mp h3).length_le
          simpa [repl45] using this
        rw [if_pos h3, if_pos h3]
        rw [step _ _ _ (reMatchFuel_lt_of _ _ _ _
              (by simp only [List.length_drop]; omega) le_rfl
              (Or.inl (by simp only [List.length_drop]; omega)))]
        cases p with
        | nil => rfl
        | cons d p2 =>
          dsimp only
          rw [step pat p2 false
                (reMatchFuel_lt_of _ _ _ _ le_rfl
                (by simp only [List.length_cons]; omega)
                (Or.inr (by simp only [List.length_cons]; omega)))]
      · rw [if_neg h3, if_neg h3]
        by_cases h4 : ['.', '*'].isPrefixOf pat = true
        · have hL : 2 ≤ pat.length := by
            have := (List.isPrefixOf_iff_prefix.mp h4).length_le
            simpa using this
          rw [if_pos h4, if_pos h4]
          rw [step _ _ _ (reMatchFuel_lt_of _ _ _ _
                (by simp only [List.length_drop]; omega) le_rfl
                (Or.inl (by simp only [List.length_drop]; omega)))]
          cases p with
          | nil => rfl
          | cons d p2 =>
            dsimp only
            rw [step pat p2 false
                  (reMatchFuel_lt_of _ _ _ _ le_rfl
                  (by simp only [List.length_cons]; omega)
                  (Or.inr (by simp only [List.length_cons]; omega)))]
        · rw [if_neg h4, if_neg h4]
          cases pat with
          | nil => rfl
          | cons c rest =>
            dsimp only
            by_cases hc : (c == '\\') = true
            · rw [if_pos hc, if_pos hc]
              cases rest with
              | nil =>
                cases p with
                | nil => rfl
                | cons d p2 =>
                  dsimp only
                  rw [step [] p2 false
                        (reMatchFuel_lt_of _ _ _ _
                        (by simp only [List.length_cons, List.length_nil]; omega)
                        (by simp only [List.length_cons]; omega)
                        (Or.inr (by simp only [List.length_cons]; omega)))]
              | cons c2 rest2 =>
                cases p with
                | nil => rfl
                | cons d p2 =>
                  dsimp only
                  rw [step rest2 p2 false
                        (reMatchFuel_lt_of _ _ _ _
                        (by simp only [List.length_cons]; omega)
                        (by simp only [List.length_cons]; omega)
                        (Or.inr (by simp only [List.length_cons]; omega)))]
            · rw [if_neg hc, if_neg hc]
              by_cases hcaret : (c == '^') = true
              · rw [if_pos hcaret, if_pos hcaret]
                rw [step rest p b
                      (reMatchFuel_lt_of _ _ _ _
                      (by simp only [List.length_cons]; omega) le_rfl
                      (Or.inl (by simp only [List.length_cons]; omega)))]
              · rw [if_neg hcaret, if_neg hcaret]
                by_cases hdollar : (c == '$') = true
                · rw [if_pos hdollar, if_pos hdollar]
                  rw [step rest p b
                        (reMatchFuel_lt_of _ _ _ _
                        (by simp only [List.length_cons]; omega) le_rfl
                        (Or.inl (by simp only [List.length_cons]; omega)))]
                · rw [if_neg hdollar, if_neg hdollar]
                  cases p with
                  | nil => rfl
                  | cons d p2 =>
                    dsimp only
                    rw [step rest p2 false
                          (reMatchFuel_lt_of _ _ _ _
                          (by simp only [List.length_cons]; omega)
                          (by simp only [List.length_cons]; omega)
                          (Or.inr (by simp only [List.length_cons]; omega)))]

/-! ## One-step laws of the regex matcher -/

theorem reMatch_nil (p : List Char) (b : Bool) : reMatch [] p b = true := by
  rw [reMatch_unfold]
  simp [grpDirs, grpSlash, repl45, List.isPrefixOf]

theorem reMatch_caret (rest p : List Char) (b : Bool) :
    reMatch ('^' :: rest) p b = (b && reMatch rest p b) := by
  rw [reMatch_unfold]
  simp [grpDirs, grpSlash, repl45, List.isPrefixOf]

theorem reMatch_dollar (rest p : List Char) (b : Bool) :
    reMatch ('$' :: rest) p b = ((p.isEmpty || p == ['\n']) && reMatch rest p b) := by
  rw [reMatch_unfold]
  simp [grpDirs, grpSlash, repl45, List.isPrefixOf]

theorem reMatch_esc (c : Char) (rest p : List Char) (b : Bool) :
    reMatch ('\\' :: c :: rest) p b =
      (match p with
       | d :: p2 => (d == c) && reMatch rest p2 false
       | [] => false) := by
  rw [reMatch_unfold]
  simp [grpDirs, grpSlash, repl45, List.isPrefixOf]

theorem reMatch_anySeg (rest p : List Char) (b : Bool) :
    reMatch (repl45 ++ rest) p b =
      (reMatch rest p b ||
        (match p with
         | d :: p2 => !(d == '/') && reMatch (repl45 ++ rest) p2 false
         | [] => false)) := by
  rw [reMatch_unfold]
  simp [grpDirs, grpSlash, repl45, List.isPrefixOf]

theorem reMatch_grpDirs (rest p : List Char) (b : Bool) :
    reMatch (grpDirs ++ rest) p b =
      (reMatch rest p b || reMatch ('.' :: '*' :: '/' :: rest) p b) := by
  rw [reMatch_unfold]
  simp [grpDirs, grpSlash, repl45, List.isPrefixOf]

theorem reMatch_grpSlash (rest p : List Char) (b : Bool) :
    reMatch (grpSlash ++ rest) p b =
      (reMatch rest p b ||
        (match p with
         | d :: p2 => (d == '/') && reMatch ('.' :: '*' :: rest) p2 false
         | [] => false)) := by
  rw [reMatch_unfold]
  simp [grpDirs, grpSlash, repl45, List.isPrefixOf]

theorem reMatch_dotStar (rest p : List Char) (b : Bool) :
    reMatch ('.' :: '*' :: rest) p b =
      (reMatch rest p b ||
        (match p with
         | d :: p2 => !(d == '\n') && reMatch ('.' :: '*' :: rest) p2 false
         | [] => false)) := by
  rw [reMatch_unfold]
  simp [grpDirs, grpSlash, repl45, List.isPrefixOf]

theorem reMatch_plain (c : Char) (rest p : List Char) (b : Bool)
    (hs : isSpecial c = false) :
    reMatch (c :: rest) p b =
      (match p with
       | d :: p2 => (d == c) && reMatch rest p2 false
       | [] => false) := by
  simp [isSpecial, specialChars] at hs
  rw [reMatch_unfold]
  simp [grpDirs, grpSlash, repl45, List.isPrefixOf, Ne.symm hs.1, Ne.symm hs.2.2.1,
    Ne.symm hs.2.2.2.2.2.2.2.2.2.2.2.2.2.2.1, hs.2.2.2.2.2.2.2.2.2.2.2.2.2.1,
    hs.2.2.2.2.2.2.2.2.2.2.2.1, hs.2.2.2.2.2.2.2.2.2.2.2.2.1]

theorem specExpandF_eq : ∀ f g (gl p : List Char),
    gl.length + p.length + 1 ≤ f → gl.length + p.length + 1 ≤ g →
    specExpandF f gl p = specExpandF g gl p := by
  intro f
  induction f with
  | zero => intro g gl p hf _; omega
  | succ f ih =>
    intro g gl p hf hg
    cases g with
    | zero => omega
    | succ g =>
      cases gl with
      | nil => rfl
      | cons c gl =>
        simp only [specExpandF]
        simp only [List.length_cons] at hf hg
        by_cases hw : isWild c = true
        · rw [if_pos hw, if_pos hw]
          rw [ih g gl p (by omega) (by omega)]
          cases p with
          | nil => rfl
          | cons d p2 =>
            dsimp only
            rw [ih g (c :: gl) p2 (by simp only [List.length_cons] at *; omega)
                  (by simp only [List.length_cons] at *; omega)]
        · rw [if_neg hw, if_neg hw]
          cases p with
          | nil => rfl
          | cons d p2 =>
            dsimp only
            rw [ih g gl p2 (by simp only [List.length_cons] at *; omega)
                  (by simp only [List.length_cons] at *; omega)]

theorem specExpand_eq_fuel (f : Nat) (gl p : List Char)
    (h : gl.length + p.length + 1 ≤ f) : specExpandF f gl p = specExpand gl p :=
  specExpandF_eq f _ gl p h le_rfl

theorem specExpand_nil (p : List Char) : specExpand [] p = p.isEmpty := rfl

theorem tokensMatchF_eq : ∀ f g (gl p : List Char),
    gl.length + p.length + 1 ≤ f → gl.length + p.length + 1 ≤ g →
    tokensMatchF f gl p = tokensMatchF g gl p := by
  intro f
  induction f with
  | zero => intro g gl p hf _; omega
  | succ f ih =>
    intro g gl p hf hg
    cases g with
    | zero => omega
    | succ g =>
      cases gl with
      | nil => rfl
      | cons c gl =>
        simp only [tokensMatchF]
        simp only [List.length_cons] at hf hg
        by_cases hw : isWild c = true
        · rw [if_pos hw, if_pos hw]
          rw [ih g gl p (by omega) (by omega)]
          cases p with
          | nil => rfl
          | cons d p2 =>
            dsimp only
            rw [ih g (c :: gl) p2 (by simp only [List.length_cons] at *; omega)
                  (by simp only [List.length_cons] at *; omega)]
        · rw [if_neg hw, if_neg hw]
          cases p with
          | nil => rfl
          | cons d p2 =>
            dsimp only
            rw [ih g gl p2 (by simp only [List.length_cons] at *; omega)
                  (by simp only [List.length_cons] at *; omega)]

theorem tokensMatch_eq_fuel (f : Nat) (gl p : List Char)
    (h : gl.length + p.length + 1 ≤ f) : tokensMatchF f gl p = tokensMatch gl p :=
  tokensMatchF_eq f _ gl p h le_rfl

theorem tokensMatch_nil (p : List Char) : tokensMatch [] p = (p.isEmpty || p == ['\n']) := rfl



theorem specExpand_wild_nil (c : Char) (gl : List Char) (hw : isWild c = true) :
    specExpand (c :: gl) [] = specExpand gl [] := by
  rw [show specExpand (c :: gl) []
        = specExpandF (((c :: gl).length + List.length []) + 1) (c :: gl) [] from rfl]
  simp only [specExpandF]
  rw [if_pos hw]
  rw [specExpand_eq_fuel _ _ _ (by simp only [List.length_cons, List.length_nil]; omega)]
  simp

theorem specExpand_wild_cons (c d : Char) (gl p2 : List Char) (hw : isWild c = true) :
    specExpand (c :: gl) (d :: p2) =
      (specExpand gl (d :: p2) || (!(d == '/') && specExpand (c :: gl) p2)) := by
  have key : ∀ F, gl.length + p2.length + 2 ≤ F →
      specExpandF (F + 1) (c :: gl) (d :: p2) =
        (specExpand gl (d :: p2) || (!(d == '/') && specExpand (c :: gl) p2)) := by
    intro F hF
    simp only [specExpandF]
    rw [if_pos hw]
    rw [specExpand_eq_fuel F gl (d :: p2) (by simp only [List.length_cons]; omega)]
    rw [specExpand_eq_fuel F (c :: gl) p2 (by simp only [List.length_cons]; omega)]
  rw [show specExpand (c :: gl) (d :: p2)
        = specExpandF (((c :: gl).length + (d :: p2).length) + 1) (c :: gl) (d :: p2) from rfl]
  exact key _ (by simp only [List.length_cons]; omega)

theorem specExpand_lit_nil (c : Char) (gl : List Char) (hw : isWild c = false) :
    specExpand (c :: gl) [] = false := by
  rw [show specExpand (c :: gl) []
        = specExpandF (((c :: gl).length + List.length []) + 1) (c :: gl) [] from rfl]
  simp only [specExpandF]
  rw [if_neg (by simp [hw])]

theorem specExpand_lit_cons (c d : Char) (gl p2 : List Char) (hw : isWild c = false) :
    specExpand (c :: gl) (d :: p2) = ((d == c) && specExpand gl p2) := by
  have key : ∀ F, gl.length + p2.length + 2 ≤ F →
      specExpandF (F + 1) (c :: gl) (d :: p2) = ((d == c) && specExpand gl p2) := by
    intro F hF
    simp only [specExpandF]
    rw [if_neg (by simp [hw])]
    rw [specExpand_eq_fuel F gl p2 (by omega)]
  rw [show specExpand (c :: gl) (d :: p2)
        = specExpandF (((c :: gl).length + (d :: p2).length) + 1) (c :: gl) (d :: p2) from rfl]
  exact key _ (by simp only [List.length_cons]; omega)

theorem tokensMatch_wild_nil (c : Char) (gl : List Char) (hw : isWild c = true) :
    tokensMatch (c :: gl) [] = tokensMatch gl [] := by
  rw [show tokensMatch (c :: gl) []
        = tokensMatchF (((c :: gl).length + List.length []) + 1) (c :: gl) [] from rfl]
  simp only [tokensMatchF]
  rw [if_pos hw]
  rw [tokensMatch_eq_fuel _ _ _ (by simp only [List.length_cons, List.length_nil]; omega)]
  simp

theorem tokensMatch_wild_cons (c d : Char) (gl p2 : List Char) (hw : isWild c = true) :
    tokensMatch (c :: gl) (d :: p2) =
      (tokensMatch gl (d :: p2) || (!(d == '/') && tokensMatch (c :: gl) p2)) := by
  have key : ∀ F, gl.length + p2.length + 2 ≤ F →
      tokensMatchF (F + 1) (c :: gl) (d :: p2) =
        (tokensMatch gl (d :: p2) || (!(d == '/') && tokensMatch (c :: gl) p2)) := by
    intro F hF
    simp only [tokensMatchF]
    rw [if_pos hw]
    rw [tokensMatch_eq_fuel F gl (d :: p2) (by simp only [List.length_cons]; omega)]
    rw [tokensMatch_eq_fuel F (c :: gl) p2 (by simp only [List.length_cons]; omega)]
  rw [show tokensMatch (c :: gl) (d :: p2)
        = tokensMatchF (((c :: gl).length + (d :: p2).length) + 1) (c :: gl) (d :: p2) from rfl]
  exact key _ (by simp only [List.length_cons]; omega)

theorem tokensMatch_lit_nil (c : Char) (gl : List Char) (hw : isWild c = false) :
    tokensMatch (c :: gl) [] = false := by
  rw [show tokensMatch (c :: gl) []
        = tokensMatchF (((c :: gl).length + List.length []) + 1) (c :: gl) [] from rfl]
  simp only [tokensMatchF]
  rw [if_neg (by simp [hw])]

theorem tokensMatch_lit_cons (c d : Char) (gl p2 : List Char) (hw : isWild c = false) :
    tokensMatch (c :: gl) (d :: p2) = ((d == c) && tokensMatch gl p2) := by
  have key : ∀ F, gl.length + p2.length + 2 ≤ F →
      tokensMatchF (F + 1) (c :: gl) (d :: p2) = ((d == c) && tokensMatch gl p2) := by
    intro F hF
    simp only [tokensMatchF]
    rw [if_neg (by simp [hw])]
    rw [tokensMatch_eq_fuel F gl p2 (by omega)]
  rw [show tokensMatch (c :: gl) (d :: p2)
        = tokensMatchF (((c :: gl).length + (d :: p2).length) + 1) (c :: gl) (d :: p2) from rfl]
  exact key _ (by simp only [List.length_cons]; omega)

/-! ## `tokensMatch` vs the spec-side matcher: the trailing-newline relation -/

theorem tokensMatch_eq_spec_aux (n : Nat) : ∀ (gl p : List Char),
    gl.length + p.length ≤ n →
    tokensMatch gl p =
      (specExpand gl p ||
        ((p.getLast? == some '\n') && specExpand gl p.dropLast)) := by
  induction n with
  | zero =>
    intro gl p h
    have hgl : gl = [] := by
      cases gl with
      | nil => rfl
      | cons a l => simp at h
    have hp : p = [] := by
      cases p with
      | nil => rfl
      | cons a l => simp at h
    subst hgl; subst hp
    rfl
  | succ n ih =>
    intro gl p h
    cases gl with
    | nil =>
      cases p with
      | nil => rfl
      | cons d p2 =>
        cases p2 with
        | nil =>
          rw [tokensMatch_nil, specExpand_nil, specExpand_nil]
          simp [List.dropLast_single]
        | cons e p3 =>
          rw [tokensMatch_nil, specExpand_nil]
          have hne : (d :: e :: p3).dropLast = d :: (e :: p3).dropLast := by
            simp [List.dropLast_cons₂]
          rw [hne, specExpand_nil]
          simp
    | cons c gl =>
      by_cases hw : isWild c = true
      · cases p with
        | nil =>
          rw [tokensMatch_wild_nil c gl hw, specExpand_wild_nil c gl hw]
          rw [ih gl [] (by simp at h ⊢; omega)]
          simp
        | cons d p2 =>
          rw [tokensMatch_wild_cons c d gl p2 hw, specExpand_wild_cons c d gl p2 hw]
          rw [ih gl (d :: p2) (by simp at h ⊢; omega)]
          rw [ih (c :: gl) p2 (by simp at h ⊢; omega)]
          cases p2 with
          | nil =>
            rw [show (d :: ([] : List Char)).dropLast = [] from rfl]
            rw [specExpand_wild_nil c gl hw]
            simp only [List.getLast?_singleton, List.dropLast_nil, List.getLast?_nil]
            cases hd : (d == '\n') <;> cases hs : (d == '/') <;>
              cases h1 : specExpand gl [d] <;> cases h2 : specExpand gl [] <;>
              simp [hd, hs, h1, h2]
          | cons e p3 =>
            have hne : (d :: e :: p3).dropLast = d :: (e :: p3).dropLast := by
              simp [List.dropLast_cons₂]
            have hnl : (d :: e :: p3).getLast? = (e :: p3).getLast? := by
              simp [List.getLast?_cons_cons]
            rw [hne, hnl, specExpand_wild_cons c d gl ((e :: p3).dropLast) hw]
            cases hN : ((e :: p3).getLast? == some '\n') <;>
              cases hs : (d == '/') <;>
              cases h1 : specExpand gl (d :: e :: p3) <;>
              cases h2 : specExpand gl (d :: (e :: p3).dropLast) <;>
              cases h3 : specExpand (c :: gl) (e :: p3) <;>
              cases h4 : specExpand (c :: gl) ((e :: p3).dropLast) <;>
              simp [hN, hs, h1, h2, h3, h4]
      · have hw2 : isWild c = false := by simpa using hw
        cases p with
        | nil =>
          rw [tokensMatch_lit_nil c gl hw2, specExpand_lit_nil c gl hw2]
          simp
        | cons d p2 =>
          rw [tokensMatch_lit_cons c d gl p2 hw2, specExpand_lit_cons c d gl p2 hw2]
          rw [ih gl p2 (by simp at h ⊢; omega)]
          cases p2 with
          | nil =>
            rw [show (d :: ([] : List Char)).dropLast = [] from rfl]
            rw [specExpand_lit_nil c gl hw2]
            simp
          | cons e p3 =>
            have hne : (d :: e :: p3).dropLast = d :: (e :: p3).dropLast := by
              simp [List.dropLast_cons₂]
            have hnl : (d :: e :: p3).getLast? = (e :: p3).getLast? := by
              simp [List.getLast?_cons_cons]
            rw [hne, hnl, specExpand_lit_cons c d gl ((e :: p3).dropLast) hw2]
            cases hN : ((e :: p3).getLast? == some '\n') <;>
              cases hdc : (d == c) <;>
              cases h1 : specExpand gl (e :: p3) <;>
              cases h2 : specExpand gl ((e :: p3).dropLast) <;>
              simp [hN, hdc, h1, h2]

theorem tokensMatch_eq_spec (gl p : List Char) :
    tokensMatch gl p =
      (specExpand gl p ||
        ((p.getLast? == some '\n') && specExpand gl p.dropLast)) :=
  tokensMatch_eq_spec_aux (gl.length + p.length) gl p le_rfl

/-! ## The first three passes do not fire on a `**`-free glob -/

theorem listReplace_no_occurrence (pat rep s : List Char)
    (h : ¬ pat <:+: s) : listReplace pat rep s = s := by
  induction s with
  | nil => rfl
  | cons c cs ih =>
    rw [listReplace_cons]
    have hpre : pat.isPrefixOf (c :: cs) = false := by
      cases hx : pat.isPrefixOf (c :: cs) with
      | false => rfl
      | true => exact absurd (List.isPrefixOf_iff_prefix.mp hx).isInfix h
    simp only [hpre, Bool.and_false, Bool.false_eq_true, if_false, List.cons.injEq, true_and]
    exact ih (fun hi => h (List.infix_cons hi))

theorem reEscape_nil : reEscape [] = [] := rfl

theorem reEscape_cons (c : Char) (g : List Char) :
    reEscape (c :: g) = escChar c ++ reEscape g := by
  simp [reEscape]

theorem escChar_special (c : Char) (h : isSpecial c = true) : escChar c = ['\\', c] := by
  simp [escChar, h]

theorem escChar_plain (c : Char) (h : isSpecial c = false) : escChar c = [c] := by
  simp [escChar, h]

theorem prefix_bs_star (g X : List Char)
    (h : ('\\' :: '*' :: X) <+: (reEscape g ++ ['$'])) :
    ∃ g2, g = '*' :: g2 ∧ X <+: (reEscape g2 ++ ['$']) := by
  cases g with
  | nil =>
    exfalso
    rw [reEscape_nil] at h
    rcases List.cons_prefix_cons.mp h with ⟨h1, _⟩
    simp at h1
  | cons c g2 =>
    rw [reEscape_cons] at h
    by_cases hc : isSpecial c = true
    · rw [escChar_special c hc] at h
      simp only [List.cons_append, List.append_assoc] at h
      rcases List.cons_prefix_cons.mp h with ⟨_, h2⟩
      rcases List.cons_prefix_cons.mp h2 with ⟨hcs, h3⟩
      exact ⟨g2, by rw [← hcs], by simpa using h3⟩
    · rw [escChar_plain c (by simpa using hc)] at h
      simp only [List.cons_append, List.nil_append] at h
      rcases List.cons_prefix_cons.mp h with ⟨hbs, _⟩
      exfalso
      rw [← hbs] at hc
      simp [isSpecial, specialChars] at hc

theorem hasDoubleStar_tail (a : Char) (l : List Char) (h : hasDoubleStar l = true) :
    hasDoubleStar (a :: l) = true := by
  cases l with
  | nil => simp [hasDoubleStar] at h
  | cons b l2 => simp [hasDoubleStar, h]

theorem hasDoubleStar_head (g : List Char) : hasDoubleStar ('*' :: '*' :: g) = true := by
  simp [hasDoubleStar]

theorem infix_needle1_escape (g : List Char)
    (h : needle1 <:+: (reEscape g ++ ['$'])) : hasDoubleStar g = true := by
  induction g with
  | nil =>
    exfalso
    have := h.length_le
    simp [needle1, reEscape_nil] at this
  | cons c g2 ih =>
    rw [reEscape_cons] at h
    by_cases hc : isSpecial c = true
    · rw [escChar_special c hc] at h
      simp only [List.cons_append, List.append_assoc] at h
      rcases List.infix_cons_iff.mp h with hpre | h2
      · exfalso
        rcases List.cons_prefix_cons.mp hpre with ⟨h1, _⟩
        simp [needle1] at h1
      · rcases List.infix_cons_iff.mp h2 with hpre | h3
        · exfalso
          rcases List.cons_prefix_cons.mp hpre with ⟨h1, _⟩
          rw [← h1] at hc
          simp [isSpecial, specialChars] at hc
        · exact hasDoubleStar_tail c g2 (ih (by simpa using h3))
    · rw [escChar_plain c (by simpa using hc)] at h
      simp only [List.cons_append, List.nil_append] at h
      rcases List.infix_cons_iff.mp h with hpre | h2
      · rcases List.cons_prefix_cons.mp hpre with ⟨h1, hrest⟩
        rcases prefix_bs_star g2 _ hrest with ⟨g3, hg3, hrest2⟩
        rcases prefix_bs_star g3 _ (by simpa [hg3] using hrest2) with ⟨g4, hg4, _⟩
        subst hg3; subst hg4
        exact hasDoubleStar_tail c _ (hasDoubleStar_head g4)
      · exact hasDoubleStar_tail c g2 (ih h2)

theorem infix_needle2_escape (g : List Char)
    (h : needle2 <:+: (reEscape g ++ ['$'])) : hasDoubleStar g = true := by
  induction g with
  | nil =>
    exfalso
    have := h.length_le
    simp [needle2, reEscape_nil] at this
  | cons c g2 ih =>
    rw [reEscape_cons] at h
    by_cases hc : isSpecial c = true
    · rw [escChar_special c hc] at h
      simp only [List.cons_append, List.append_assoc] at h
      rcases List.infix_cons_iff.mp h with hpre | h2
      · exfalso
        rcases List.cons_prefix_cons.mp hpre with ⟨h1, _⟩
        simp [needle2] at h1
      · rcases List.infix_cons_iff.mp h2 with hpre | h3
        · rcases List.cons_prefix_cons.mp hpre with ⟨_, hrest⟩
          rcases prefix_bs_star g2 _ (by simpa using hrest) with ⟨g3, hg3, hrest2⟩
          rcases prefix_bs_star g3 _ (by simpa [hg3] using hrest2) with ⟨g4, hg4, _⟩
          subst hg3; subst hg4
          exact hasDoubleStar_tail c _ (hasDoubleStar_head g4)
        · exact hasDoubleStar_tail c g2 (ih (by simpa using h3))
    · rw [escChar_plain c (by simpa using hc)] at h
      simp only [List.cons_append, List.nil_append] at h
      rcases List.infix_cons_iff.mp h with hpre | h2
      · exfalso
        rcases List.cons_prefix_cons.mp hpre with ⟨h1, _⟩
        rw [← h1] at hc
        simp [isSpecial, specialChars] at hc
      · exact hasDoubleStar_tail c g2 (ih h2)

theorem infix_needle3_escape (g : List Char)
    (h : needle3 <:+: (reEscape g ++ ['$'])) : hasDoubleStar g = true := by
  induction g with
  | nil =>
    exfalso
    have := h.length_le
    simp [needle3, reEscape_nil] at this
  | cons c g2 ih =>
    rw [reEscape_cons] at h
    by_cases hc : isSpecial c = true
    · rw [escChar_special c hc] at h
      simp only [List.cons_append, List.append_assoc] at h
      rcases List.infix_cons_iff.mp h with hpre | h2
      · exfalso
        rcases List.cons_prefix_cons.mp hpre with ⟨h1, _⟩
        simp [needle3] at h1
      · rcases List.infix_cons_iff.mp h2 with hpre | h3
        · exfalso
          rcases List.cons_prefix_cons.mp hpre with ⟨h1, _⟩
          rw [← h1] at hc
          simp [isSpecial, specialChars] at hc
        · exact hasDoubleStar_tail c g2 (ih (by simpa using h3))
    · rw [escChar_plain c (by simpa using hc)] at h
      simp only [List.cons_append, List.nil_append] at h
      rcases List.infix_cons_iff.mp h with hpre | h2
      · rcases List.cons_prefix_cons.mp hpre with ⟨h1, hrest⟩
        rcases prefix_bs_star g2 _ hrest with ⟨g3, hg3, hrest2⟩
        rcases prefix_bs_star g3 _ (by simpa [hg3] using hrest2) with ⟨g4, hg4, _⟩
        subst hg3; subst hg4
        exact hasDoubleStar_tail c _ (hasDoubleStar_head g4)
      · exact hasDoubleStar_tail c g2 (ih h2)

theorem notInfix_needle1 (g : List Char) (h : hasDoubleStar g = false) :
    ¬ needle1 <:+: ('^' :: reEscape g ++ ['$']) := by
  intro hi
  rw [show ('^' :: reEscape g ++ ['$']) = '^' :: (reEscape g ++ ['$']) from rfl] at hi
  rcases List.infix_cons_iff.mp hi with hpre | h2
  · rcases List.cons_prefix_cons.mp hpre with ⟨h1, _⟩
    simp [needle1] at h1
  · rw [infix_needle1_escape g h2] at h
    simp at h

theorem notInfix_needle2 (g : List Char) (h : hasDoubleStar g = false) :
    ¬ needle2 <:+: ('^' :: reEscape g ++ ['$']) := by
  intro hi
  rw [show ('^' :: reEscape g ++ ['$']) = '^' :: (reEscape g ++ ['$']) from rfl] at hi
  rcases List.infix_cons_iff.mp hi with hpre | h2
  · rcases List.cons_prefix_cons.mp hpre with ⟨_, hrest⟩
    rcases prefix_bs_star g _ (by simpa using hrest) with ⟨g3, hg3, hrest2⟩
    rcases prefix_bs_star g3 _ (by simpa [hg3] using hrest2) with ⟨g4, hg4, _⟩
    subst hg3; subst hg4
    rw [hasDoubleStar_head g4] at h
    simp at h
  · rw [infix_needle2_escape g h2] at h
    simp at h

theorem notInfix_needle3 (g : List Char) (h : hasDoubleStar g = false) :
    ¬ needle3 <:+: ('^' :: reEscape g ++ ['$']) := by
  intro hi
  rw [show ('^' :: reEscape g ++ ['$']) = '^' :: (reEscape g ++ ['$']) from rfl] at hi
  rcases List.infix_cons_iff.mp hi with hpre | h2
  · rcases List.cons_prefix_cons.mp hpre with ⟨h1, _⟩
    simp [needle3] at h1
  · rw [infix_needle3_escape g h2] at h
    simp at h

/-! ## The fourth and fifth passes expand escaped wildcards blockwise -/

theorem starToks_nil : starToks [] = [] := rfl

theorem starToks_cons (c : Char) (g : List Char) :
    starToks (c :: g) = starChar c ++ starToks g := by
  simp [starToks]

theorem expandToks_nil : expandToks [] = [] := rfl

theorem expandToks_cons (c : Char) (g : List Char) :
    expandToks (c :: g) = tokChar c ++ expandToks g := by
  simp [expandToks]

theorem star_not_prefix_escape (g : List Char) :
    (['*'].isPrefixOf (reEscape g ++ ['$'])) = false := by
  cases g with
  | nil => rfl
  | cons c g2 =>
    rw [reEscape_cons]
    by_cases hc : isSpecial c = true
    · rw [escChar_special c hc]
      rfl
    · rw [escChar_plain c (by simpa using hc)]
      have hcs : c ≠ '*' := by
        intro he
        rw [he] at hc
        simp [isSpecial, specialChars] at hc
      simp [List.isPrefixOf, Ne.symm hcs]

theorem qmark_not_prefix_starToks (g : List Char) :
    (['?'].isPrefixOf (starToks g ++ ['$'])) = false := by
  cases g with
  | nil => rfl
  | cons c g2 =>
    rw [starToks_cons]
    by_cases hstar : c = '*'
    · subst hstar
      rw [show starChar '*' = repl45 from rfl]
      rfl
    · rw [show starChar c = escChar c from by simp [starChar, hstar]]
      by_cases hc : isSpecial c = true
      · rw [escChar_special c hc]
        rfl
      · rw [escChar_plain c (by simpa using hc)]
        have hcs : c ≠ '?' := by
          intro he
          rw [he] at hc
          simp [isSpecial, specialChars] at hc
        simp [List.isPrefixOf, Ne.symm hcs]

theorem replace4_escape (g : List Char) :
    listReplace needle4 repl45 (reEscape g ++ ['$']) = starToks g ++ ['$'] := by
  induction g with
  | nil =>
    rw [reEscape_nil, starToks_nil]
    simp only [List.nil_append]
    rw [listReplace_cons]
    simp [needle4, List.isPrefixOf, listReplace_nil]
  | cons c g2 ih =>
    rw [reEscape_cons, starToks_cons]
    by_cases hstar : c = '*'
    · subst hstar
      rw [escChar_special '*' (by decide), show starChar '*' = repl45 from rfl]
      simp only [List.cons_append, List.append_assoc, List.nil_append]
      rw [listReplace_cons]
      have hcond : needle4.isPrefixOf ('\\' :: '*' :: (reEscape g2 ++ ['$'])) = true := by
        simp [needle4, List.isPrefixOf]
      simp only [hcond, Bool.and_true, needle4]
      norm_num
      exact ih
    · by_cases hc : isSpecial c = true
      · rw [escChar_special c hc, show starChar c = escChar c from by simp [starChar, hstar],
          escChar_special c hc]
        simp only [List.cons_append, List.append_assoc, List.nil_append]
        rw [listReplace_cons]
        have hcond : needle4.isPrefixOf ('\\' :: c :: (reEscape g2 ++ ['$'])) = false := by
          simp [needle4, List.isPrefixOf, Ne.symm hstar]
        simp only [hcond, Bool.and_false, Bool.false_eq_true, if_false]
        rw [listReplace_cons]
        have hcond2 : needle4.isPrefixOf (c :: (reEscape g2 ++ ['$'])) = false := by
          by_cases hbs2 : c = '\\'
          · subst hbs2
            have htail := star_not_prefix_escape g2
            simp only [needle4, List.isPrefixOf, beq_self_eq_true, Bool.true_and]
            exact htail
          · simp [needle4, List.isPrefixOf, Ne.symm hbs2]
        simp only [hcond2, Bool.and_false, Bool.false_eq_true, if_false]
        rw [ih]
      · rw [escChar_plain c (by simpa using hc), show starChar c = escChar c from by
          simp [starChar, hstar], escChar_plain c (by simpa using hc)]
        simp only [List.cons_append, List.nil_append, List.singleton_append]
        rw [listReplace_cons]
        have hbs : c ≠ '\\' := by
          intro he
          rw [he] at hc
          simp [isSpecial, specialChars] at hc
        have hcond : needle4.isPrefixOf (c :: (reEscape g2 ++ ['$'])) = false := by
          simp [needle4, List.isPrefixOf, Ne.symm hbs]
        simp only [hcond, Bool.and_false, Bool.false_eq_true, if_false]
        rw [ih]

theorem listReplace5_step (x : Char) (l : List Char) (hx : x ≠ '\\') :
    listReplace needle5 repl45 (x :: l) = x :: listReplace needle5 repl45 l := by
  rw [listReplace_cons]
  have hcond : needle5.isPrefixOf (x :: l) = false := by
    simp [needle5, List.isPrefixOf, Ne.symm hx]
  simp [hcond]

theorem replace5_starToks (g : List Char) :
    listReplace needle5 repl45 (starToks g ++ ['$']) = expandToks g ++ ['$'] := by
  induction g with
  | nil =>
    rw [starToks_nil, expandToks_nil]
    simp only [List.nil_append]
    rw [listReplace5_step '$' [] (by decide), listReplace_nil]
  | cons c g2 ih =>
    rw [starToks_cons, expandToks_cons]
    by_cases hstar : c = '*'
    · subst hstar
      rw [show starChar '*' = repl45 from rfl, show tokChar '*' = repl45 from rfl]
      rw [show repl45 ++ starToks g2 ++ ['$']
            = '[' :: '^' :: '/' :: ']' :: '*' :: (starToks g2 ++ ['$']) from by
          simp [repl45]]
      rw [show repl45 ++ expandToks g2 ++ ['$']
            = '[' :: '^' :: '/' :: ']' :: '*' :: (expandToks g2 ++ ['$']) from by
          simp [repl45]]
      rw [listReplace5_step _ _ (by decide), listReplace5_step _ _ (by decide),
        listReplace5_step _ _ (by decide), listReplace5_step _ _ (by decide),
        listReplace5_step _ _ (by decide), ih]
    · by_cases hq : c = '?'
      · subst hq
        rw [show starChar '?' = ['\\', '?'] from rfl, show tokChar '?' = repl45 from rfl]
        simp only [List.cons_append, List.append_assoc, List.nil_append]
        rw [listReplace_cons]
        have hcond : needle5.isPrefixOf ('\\' :: '?' :: (starToks g2 ++ ['$'])) = true := by
          simp [needle5, List.isPrefixOf]
        simp only [hcond, Bool.and_true, needle5]
        norm_num
        exact ih
      · by_cases hc : isSpecial c = true
        · rw [show starChar c = escChar c from by simp [starChar, hstar],
            show tokChar c = escChar c from by simp [tokChar, isWild, hstar, hq],
            escChar_special c hc]
          simp only [List.cons_append, List.append_assoc, List.nil_append]
          rw [listReplace_cons]
          have hcond : needle5.isPrefixOf ('\\' :: c :: (starToks g2 ++ ['$'])) = false := by
            simp [needle5, List.isPrefixOf, Ne.symm hq]
          simp only [hcond, Bool.and_false, Bool.false_eq_true, if_false]
          rw [listReplace_cons]
          have hcond2 : needle5.isPrefixOf (c :: (starToks g2 ++ ['$'])) = false := by
            by_cases hbs2 : c = '\\'
            · subst hbs2
              have htail := qmark_not_prefix_starToks g2
              simp only [needle5, List.isPrefixOf, beq_self_eq_true, Bool.true_and]
              exact htail
            · simp [needle5, List.isPrefixOf, Ne.symm hbs2]
          simp only [hcond2, Bool.and_false, Bool.false_eq_true, if_false]
          rw [ih]
        · rw [show starChar c = escChar c from by simp [starChar, hstar],
            show tokChar c = escChar c from by simp [tokChar, isWild, hstar, hq],
            escChar_plain c (by simpa using hc)]
          simp only [List.cons_append, List.nil_append, List.singleton_append]
          have hbs : c ≠ '\\' := by
            intro he
            rw [he] at hc
            simp [isSpecial, specialChars] at hc
          rw [listReplace5_step c _ hbs, ih]

theorem listReplace4_step (x : Char) (l : List Char) (hx : x ≠ '\\') :
    listReplace needle4 repl45 (x :: l) = x :: listReplace needle4 repl45 l := by
  rw [listReplace_cons]
  have hcond : needle4.isPrefixOf (x :: l) = false := by
    simp [needle4, List.isPrefixOf, Ne.symm hx]
  simp [hcond]

/-- On a `**`-free glob, the whole compilation pipeline reduces to anchoring
plus the per-character expansion of wildcards to `[^/]*` and of other
characters to their escaped forms. -/
theorem compilePattern_noDoubleStar (glob : String)
    (h : hasDoubleStar glob.toList = false) :
    compilePattern glob = '^' :: expandToks glob.toList ++ ['$'] := by
  unfold compilePattern
  rw [listReplace_no_occurrence needle1 repl1 _ (notInfix_needle1 _ h)]
  rw [listReplace_no_occurrence needle2 repl2 _ (notInfix_needle2 _ h)]
  rw [listReplace_no_occurrence needle3 repl3 _ (notInfix_needle3 _ h)]
  rw [show ('^' :: reEscape glob.toList ++ ['$'])
        = '^' :: (reEscape glob.toList ++ ['$']) from rfl]
  rw [listReplace4_step '^' _ (by decide), replace4_escape]
  rw [listReplace5_step '^' _ (by decide), replace5_starToks]
  rfl

/-! ## The compiled tokens of a `**`-free glob match exactly `tokensMatch` -/

theorem reMatch_expandToks_aux (n : Nat) : ∀ (gl pl : List Char) (b : Bool),
    gl.length + pl.length ≤ n →
    reMatch (expandToks gl ++ ['$']) pl b = tokensMatch gl pl := by
  induction n with
  | zero =>
    intro gl pl b h
    have hgl : gl = [] := by
      cases gl with
      | nil => rfl
      | cons a l => simp at h
    have hpl : pl = [] := by
      cases pl with
      | nil => rfl
      | cons a l => simp at h
    subst hgl; subst hpl
    rw [expandToks_nil]
    simp only [List.nil_append]
    rw [reMatch_dollar, reMatch_nil, tokensMatch_nil]
    simp
  | succ n ih =>
    intro gl pl b h
    cases gl with
    | nil =>
      rw [expandToks_nil]
      simp only [List.nil_append]
      rw [reMatch_dollar, reMatch_nil, tokensMatch_nil]
      simp
    | cons c gl2 =>
      rw [expandToks_cons]
      by_cases hw : isWild c = true
      · rw [show tokChar c = repl45 from by simp [tokChar, hw]]
        rw [List.append_assoc]
        rw [reMatch_anySeg]
        rw [ih gl2 pl b (by simp at h ⊢; omega)]
        cases pl with
        | nil =>
          rw [tokensMatch_wild_nil c gl2 hw]
          simp
        | cons d p2 =>
          rw [tokensMatch_wild_cons c d gl2 p2 hw]
          dsimp only
          rw [show repl45 ++ (expandToks gl2 ++ ['$'])
                = expandToks (c :: gl2) ++ ['$'] from by
              rw [expandToks_cons, show tokChar c = repl45 from by simp [tokChar, hw],
                List.append_assoc]]
          rw [ih (c :: gl2) p2 false (by simp at h ⊢; omega)]
      · have hw2 : isWild c = false := by simpa using hw
        by_cases hc : isSpecial c = true
        · rw [show tokChar c = escChar c from by simp [tokChar, hw2], escChar_special c hc]
          rw [show (['\\', c] ++ expandToks gl2) ++ ['$']
                = '\\' :: c :: (expandToks gl2 ++ ['$']) from by simp]
          rw [reMatch_esc]
          cases pl with
          | nil =>
            rw [tokensMatch_lit_nil c gl2 hw2]
          | cons d p2 =>
            rw [tokensMatch_lit_cons c d gl2 p2 hw2]
            dsimp only
            rw [ih gl2 p2 false (by simp at h ⊢; omega)]
        · rw [show tokChar c = escChar c from by simp [tokChar, hw2],
            escChar_plain c (by simpa using hc)]
          rw [show ([c] ++ expandToks gl2) ++ ['$']
                = c :: (expandToks gl2 ++ ['$']) from by simp]
          rw [reMatch_plain c _ _ _ (by simpa using hc)]
          cases pl with
          | nil =>
            rw [tokensMatch_lit_nil c gl2 hw2]
          | cons d p2 =>
            rw [tokensMatch_lit_cons c d gl2 p2 hw2]
            dsimp only
            rw [ih gl2 p2 false (by simp at h ⊢; omega)]

theorem reMatch_expandToks (gl pl : List Char) (b : Bool) :
    reMatch (expandToks gl ++ ['$']) pl b = tokensMatch gl pl :=
  reMatch_expandToks_aux (gl.length + pl.length) gl pl b le_rfl

/-- The central correspondence for `**`-free globs: the compiled matcher
accepts `path` iff `path` literally fits the expanded glob, or does so after
removing one trailing newline (Python `$` semantics). -/
theorem globMatches_noDoubleStar (glob path : String)
    (h : hasDoubleStar glob.toList = false) :
    globMatches glob path =
      (specGlobEquals glob path ||
        ((path.toList.getLast? == some '\n') &&
          specExpand glob.toList path.toList.dropLast)) := by
  unfold globMatches RecursiveGlobPattern.ofGlob RecursiveGlobPattern.rgpMatches
  rw [compilePattern_noDoubleStar glob h]
  rw [show ('^' :: expandToks glob.toList ++ ['$'])
        = '^' :: (expandToks glob.toList ++ ['$']) from rfl]
  rw [reMatch_caret]
  simp only [Bool.true_and]
  rw [reMatch_expandToks]
  rw [tokensMatch_eq_spec]
  rfl

/-! ## Replacing `?` by `*` in an isolated-wildcard glob -/

theorem replaceQmark_toList (glob : String) :
    (replaceQmark glob).toList = glob.toList.map (fun c => if c = '?' then '*' else c) := rfl

theorem expandToks_map_qmark (gl : List Char) :
    expandToks (gl.map (fun c => if c = '?' then '*' else c)) = expandToks gl := by
  induction gl with
  | nil => rfl
  | cons c gl2 ih =>
    simp only [List.map_cons]
    rw [expandToks_cons, expandToks_cons, ih]
    by_cases hq : c = '?'
    · subst hq
      rfl
    · rw [if_neg hq]

theorem hasDoubleStar_map_qmark (gl : List Char) (h1 : hasDoubleStar gl = false)
    (h2 : qIsolated gl = true) :
    hasDoubleStar (gl.map (fun c => if c = '?' then '*' else c)) = false := by
  induction gl with
  | nil => rfl
  | cons a gl2 ih =>
    cases gl2 with
    | nil => rfl
    | cons b gl3 =>
      simp only [List.map_cons]
      simp only [hasDoubleStar] at h1 ⊢
      simp only [qIsolated] at h2
      have hab : ¬((a == '?' || b == '?') && isWild a && isWild b) = true := by
        intro hx
        simp [hx] at h2
      have htail : hasDoubleStar (b :: gl3) = false := by
        cases hy : hasDoubleStar (b :: gl3) with
        | false => rfl
        | true => simp [hy] at h1
      have hq2 : qIsolated (b :: gl3) = true := by
        cases hy : qIsolated (b :: gl3) with
        | true => rfl
        | false => simp [hy] at h2
      have hmap := ih htail hq2
      simp only [List.map_cons] at hmap
      rw [Bool.or_eq_false_iff]
      constructor
      · by_cases ha : a = '?'
        · by_cases hb : b = '?'
          · exfalso
            exact hab (by simp [ha, hb, isWild])
          · by_cases hbs : b = '*'
            · exfalso
              exact hab (by simp [ha, hbs, isWild])
            · simp [ha, if_neg hb, hbs]
        · by_cases hb : b = '?'
          · by_cases has : a = '*'
            · exfalso
              exact hab (by simp [hb, has, isWild])
            · simp [if_neg ha, hb, has]
          · simp only [if_neg ha, if_neg hb]
            have := Bool.or_eq_false_iff.mp h1
            exact this.1
      · exact hmap

/-! ## Block lemmas for the `?`-to-`*` comparison -/

theorem flatQ_nil (qc : Char) : flatQ qc [] = [] := rfl

theorem flatQ_cons (qc : Char) (it : QItem) (items : List QItem) :
    flatQ qc (it :: items) = projQ qc it ++ flatQ qc items := by
  simp [flatQ]

theorem flatQ_append (qc : Char) (l1 l2 : List QItem) :
    flatQ qc (l1 ++ l2) = flatQ qc l1 ++ flatQ qc l2 := by
  simp [flatQ]

theorem itemsOK_destruct (a : QItem) (rest : List QItem)
    (h : itemsOK (a :: rest) = true) :
    okItem a = true ∧ okPairO a rest.head? = true ∧ itemsOK rest = true := by
  have h2 := h
  simp only [itemsOK, Bool.and_eq_true] at h2
  exact ⟨h2.1.1, h2.1.2, h2.2⟩

theorem itemsOK_build (a : QItem) (rest : List QItem)
    (h1 : okItem a = true) (h2 : okPairO a rest.head? = true)
    (h3 : itemsOK rest = true) : itemsOK (a :: rest) = true := by
  simp [itemsOK, h1, h2, h3]

theorem okPairO_lit (c : Char) (o : Option QItem) :
    okPairO (QItem.litChar c) o = true := by
  cases o with
  | none => rfl
  | some b => cases b <;> rfl

theorem okPair_to_lit (a : QItem) (c : Char) (h1 : (c == '*') = false)
    (h2 : (c == '?') = false) : okPair a (QItem.litChar c) = true := by
  cases a with
  | litChar d => rfl
  | escPair d => simp [okPair, h1, h2]
  | subPair => rfl

/-! ### Window shape analysis on blocks -/

theorem win3_shape (e : Char) (items : List QItem) (h : win3 e items = true) :
    ∃ rest2, items = QItem.escPair '*' :: QItem.escPair '*' :: QItem.litChar e :: rest2 := by
  cases items with
  | nil => simp [win3] at h
  | cons i1 r1 =>
    cases i1 with
    | litChar c => simp [win3] at h
    | subPair => simp [win3] at h
    | escPair c1 =>
      cases r1 with
      | nil => simp [win3] at h
      | cons i2 r2 =>
        cases i2 with
        | litChar c => simp [win3] at h
        | subPair => simp [win3] at h
        | escPair c2 =>
          cases r2 with
          | nil => simp [win3] at h
          | cons i3 r3 =>
            cases i3 with
            | escPair c => simp [win3] at h
            | subPair => simp [win3] at h
            | litChar c3 =>
              simp only [win3, Bool.and_eq_true, beq_iff_eq] at h
              obtain ⟨⟨h1, h2⟩, h3⟩ := h
              subst h1; subst h2; subst h3
              exact ⟨r3, rfl⟩

theorem win3_ne1 (e c1 : Char) (r1 : List QItem) (h : (c1 == '*') = false) :
    win3 e (QItem.escPair c1 :: r1) = false := by
  cases r1 with
  | nil => simp [win3]
  | cons i2 r2 =>
    cases i2 with
    | litChar c => simp [win3]
    | subPair => simp [win3]
    | escPair c2 =>
      cases r2 with
      | nil => simp [win3]
      | cons i3 r3 =>
        cases i3 with
        | litChar c3 => simp [win3, h]
        | escPair c => simp [win3]
        | subPair => simp [win3]

theorem win3_ne2 (e c1 c2 : Char) (r2 : List QItem) (h : (c2 == '*') = false) :
    win3 e (QItem.escPair c1 :: QItem.escPair c2 :: r2) = false := by
  cases r2 with
  | nil => simp [win3]
  | cons i3 r3 =>
    cases i3 with
    | litChar c3 => simp [win3, h]
    | escPair c => simp [win3]
    | subPair => simp [win3]

/-- Under the block discipline, the text `\*\*X` (`X` not a backslash) occurs
at the head of a projection exactly when the blocks there are two star pairs
followed by the literal `X`, on either side. -/
theorem flatQ_stars (qc e : Char) (hq : qc = '?' ∨ qc = '*') (he : (e == '\\') = false) :
    ∀ items : List QItem, itemsOK items = true →
    (['\\', '*', '\\', '*', e]).isPrefixOf (flatQ qc items) = win3 e items := by
  intro items hok
  cases items with
  | nil => rfl
  | cons i1 r1 =>
    obtain ⟨hi1, hp1, hr1⟩ := itemsOK_destruct _ _ hok
    cases i1 with
    | litChar c =>
      have hc : (c == '\\') = false := by simpa [okItem] using hi1
      have hc2 : c ≠ '\\' := by simpa using hc
      rw [flatQ_cons]
      simp [projQ, List.isPrefixOf, win3, Ne.symm hc2]
    | subPair =>
      rw [flatQ_cons]
      rcases hq with hq | hq
      · subst hq
        simp [projQ, List.isPrefixOf, win3]
      · subst hq
        simp only [projQ, List.cons_append, List.isPrefixOf, beq_self_eq_true, Bool.true_and]
        cases r1 with
        | nil => simp [flatQ_nil, win3, List.isPrefixOf]
        | cons i2 r2 =>
          obtain ⟨hi2, hp2, hr2⟩ := itemsOK_destruct _ _ hr1
          cases i2 with
          | litChar d =>
            have hd : d ≠ '\\' := by simpa [okItem] using hi2
            rw [flatQ_cons]
            simp [projQ, List.isPrefixOf, win3, Ne.symm hd]
          | escPair d =>
            have hd : (d == '*') = false := by simpa [okPairO, okPair] using hp1
            have hd2 : d ≠ '*' := by simpa using hd
            rw [flatQ_cons]
            simp [projQ, List.isPrefixOf, win3, Ne.symm hd2]
          | subPair =>
            simp [okPairO, okPair] at hp1
    | escPair c1 =>
      rw [flatQ_cons]
      by_cases hc1 : c1 = '*'
      · subst hc1
        simp only [projQ, List.cons_append, List.isPrefixOf, beq_self_eq_true, Bool.true_and]
        cases r1 with
        | nil => simp [flatQ_nil, win3, List.isPrefixOf]
        | cons i2 r2 =>
          obtain ⟨hi2, hp2, hr2⟩ := itemsOK_destruct _ _ hr1
          cases i2 with
          | litChar d =>
            have hd : d ≠ '\\' := by simpa [okItem] using hi2
            rw [flatQ_cons]
            simp [projQ, List.isPrefixOf, win3, Ne.symm hd]
          | subPair =>
            simp [okPairO, okPair] at hp1
          | escPair c2 =>
            by_cases hc2 : c2 = '*'
            · subst hc2
              rw [flatQ_cons]
              simp only [projQ, List.cons_append, List.isPrefixOf, beq_self_eq_true,
                Bool.true_and]
              cases r2 with
              | nil => simp [flatQ_nil, win3, List.isPrefixOf]
              | cons i3 r3 =>
                cases i3 with
                | litChar c3 =>
                  rw [flatQ_cons]
                  by_cases hec : e = c3
                  · subst hec
                    simp [projQ, List.isPrefixOf, win3]
                  · simp [projQ, List.isPrefixOf, win3, hec, Ne.symm hec]
                | escPair c3 =>
                  have he2 : e ≠ '\\' := by simpa using he
                  rw [flatQ_cons]
                  simp [projQ, List.isPrefixOf, win3, he2]
                | subPair =>
                  have he2 : e ≠ '\\' := by simpa using he
                  rw [flatQ_cons]
                  simp [projQ, List.isPrefixOf, win3, he2]
            · rw [flatQ_cons]
              have hc2b : c2 ≠ '*' := hc2
              rw [win3_ne2 e '*' c2 r2 (by simpa using hc2)]
              simp [projQ, List.isPrefixOf, Ne.symm hc2b]
      · rw [win3_ne1 e c1 r1 (by simpa using hc1)]
        simp [projQ, List.isPrefixOf, Ne.symm hc1]

theorem listReplace_skip1 (pat rep : List Char) (c : Char) (s : List Char)
    (h : pat.isPrefixOf (c :: s) = false) :
    listReplace pat rep (c :: s) = c :: listReplace pat rep s := by
  rw [listReplace_cons]
  simp [h]

theorem listReplace_skip2 (pat rep : List Char) (a x : Char) (s : List Char)
    (h1 : pat.isPrefixOf (a :: x :: s) = false)
    (h2 : pat.isPrefixOf (x :: s) = false) :
    listReplace pat rep (a :: x :: s) = a :: x :: listReplace pat rep s := by
  rw [listReplace_skip1 _ _ _ _ h1, listReplace_skip1 _ _ _ _ h2]

theorem listReplace_window (pat rep : List Char) (e0 e5 : Char) (t : List Char)
    (hpat : pat = [e0, '\\', '*', '\\', '*', e5]) :
    listReplace pat rep (e0 :: '\\' :: '*' :: '\\' :: '*' :: e5 :: t)
      = rep ++ listReplace pat rep t := by
  subst hpat
  rw [listReplace_cons]
  have hpre : ([e0, '\\', '*', '\\', '*', e5]).isPrefixOf
      (e0 :: '\\' :: '*' :: '\\' :: '*' :: e5 :: t) = true := by
    simp [List.isPrefixOf]
  simp [hpre]

/-! ### Pass 1 acts identically on both sides -/

theorem pass1_sim : ∀ (n : Nat) (items : List QItem), items.length ≤ n →
    itemsOK items = true →
    ∃ items2 : List QItem, itemsOK items2 = true ∧
      (∀ a : QItem, okPairO a items.head? = true → okPairO a items2.head? = true) ∧
      (∀ qc : Char, (qc = '?' ∨ qc = '*') →
        listReplace needle1 repl1 (flatQ qc items) = flatQ qc items2) := by
  intro n
  induction n with
  | zero =>
    intro items hlen hok
    have hnil : items = [] := List.eq_nil_of_length_eq_zero (Nat.le_zero.mp hlen)
    subst hnil
    exact ⟨[], rfl, fun a h => h, fun qc _ => rfl⟩
  | succ n ih =>
    intro items hlen hok
    cases items with
    | nil => exact ⟨[], rfl, fun a h => h, fun qc _ => rfl⟩
    | cons i1 rest =>
      obtain ⟨hi1, hp1, hrest⟩ := itemsOK_destruct _ _ hok
      have hlen2 : rest.length ≤ n := by simpa using Nat.le_of_succ_le_succ hlen
      cases i1 with
      | litChar c =>
        by_cases hwin : ((c == '/') && win3 '/' rest) = true
        · rw [Bool.and_eq_true] at hwin
          have hc' : c = '/' := by simpa using hwin.1
          subst hc'
          obtain ⟨rest2, hsh⟩ := win3_shape '/' rest hwin.2
          subst hsh
          obtain ⟨_, _, hx1⟩ := itemsOK_destruct _ _ hrest
          obtain ⟨_, _, hx2⟩ := itemsOK_destruct _ _ hx1
          obtain ⟨_, _, hok2⟩ := itemsOK_destruct _ _ hx2
          have hlen3 : rest2.length ≤ n := by
            simp only [List.length_cons] at hlen
            omega
          obtain ⟨items2, hok2', htr, heq⟩ := ih rest2 hlen3 hok2
          refine ⟨repl1Items ++ items2, ?_, ?_, ?_⟩
          · simp [repl1Items, itemsOK, okItem, okPairO_lit, hok2']
          · intro a h
            simpa [repl1Items] using h
          · intro qc hq
            show listReplace needle1 repl1
                ('/' :: '\\' :: '*' :: '\\' :: '*' :: '/' :: flatQ qc rest2)
              = flatQ qc (repl1Items ++ items2)
            rw [listReplace_window needle1 repl1 '/' '/' (flatQ qc rest2) rfl]
            rw [heq qc hq, flatQ_append]
            rw [show flatQ qc repl1Items = repl1 from rfl]
        · have hwin' : ((c == '/') && win3 '/' rest) = false := by
            cases h : ((c == '/') && win3 '/' rest) with
            | false => rfl
            | true => exact absurd h hwin
          obtain ⟨items2, hok2', htr, heq⟩ := ih rest hlen2 hrest
          refine ⟨QItem.litChar c :: items2, ?_, ?_, ?_⟩
          · exact itemsOK_build _ _ hi1 (okPairO_lit c _) hok2'
          · intro a h
            exact h
          · intro qc hq
            rw [flatQ_cons]
            simp only [projQ, List.singleton_append]
            have hnp : needle1.isPrefixOf (c :: flatQ qc rest) = false := by
              have hst := flatQ_stars qc '/' hq (by decide) rest hrest
              by_cases hc : c = '/'
              · subst hc
                simp only [needle1, List.isPrefixOf, beq_self_eq_true, Bool.true_and]
                rw [hst]
                simpa using hwin'
              · simp [needle1, List.isPrefixOf, Ne.symm hc]
            rw [listReplace_skip1 _ _ _ _ hnp, heq qc hq, flatQ_cons]
            simp [projQ]
      | escPair c =>
        have hcslash : (c == '/') = false := by simpa [okItem] using hi1
        have hc2 : c ≠ '/' := by simpa using hcslash
        obtain ⟨items2, hok2', htr, heq⟩ := ih rest hlen2 hrest
        refine ⟨QItem.escPair c :: items2, ?_, ?_, ?_⟩
        · exact itemsOK_build _ _ hi1 (htr _ hp1) hok2'
        · intro a h
          exact h
        · intro qc hq
          rw [flatQ_cons]
          simp only [projQ, List.cons_append, List.nil_append]
          have hnp1 : needle1.isPrefixOf ('\\' :: c :: flatQ qc rest) = false := by
            simp [needle1, List.isPrefixOf]
          have hnp2 : needle1.isPrefixOf (c :: flatQ qc rest) = false := by
            simp [needle1, List.isPrefixOf, Ne.symm hc2]
          rw [listReplace_skip2 _ _ _ _ _ hnp1 hnp2, heq qc hq, flatQ_cons]
          simp [projQ]
      | subPair =>
        obtain ⟨items2, hok2', htr, heq⟩ := ih rest hlen2 hrest
        refine ⟨QItem.subPair :: items2, ?_, ?_, ?_⟩
        · exact itemsOK_build _ _ rfl (htr _ hp1) hok2'
        · intro a h
          exact h
        · intro qc hq
          rw [flatQ_cons]
          simp only [projQ, List.cons_append, List.nil_append]
          have hnp1 : needle1.isPrefixOf ('\\' :: qc :: flatQ qc rest) = false := by
            simp [needle1, List.isPrefixOf]
          have hnp2 : needle1.isPrefixOf (qc :: flatQ qc rest) = false := by
            rcases hq with h | h <;> subst h <;> simp [needle1, List.isPrefixOf]
          rw [listReplace_skip2 _ _ _ _ _ hnp1 hnp2, heq qc hq, flatQ_cons]
          simp [projQ]

/-! ### Pass 2 acts identically on both sides -/

theorem pass2_sim : ∀ (n : Nat) (items : List QItem), items.length ≤ n →
    itemsOK items = true →
    ∃ items2 : List QItem, itemsOK items2 = true ∧
      (∀ a : QItem, okPairO a items.head? = true → okPairO a items2.head? = true) ∧
      (∀ qc : Char, (qc = '?' ∨ qc = '*') →
        listReplace needle2 repl2 (flatQ qc items) = flatQ qc items2) := by
  intro n
  induction n with
  | zero =>
    intro items hlen hok
    have hnil : items = [] := List.eq_nil_of_length_eq_zero (Nat.le_zero.mp hlen)
    subst hnil
    exact ⟨[], rfl, fun a h => h, fun qc _ => rfl⟩
  | succ n ih =>
    intro items hlen hok
    cases items with
    | nil => exact ⟨[], rfl, fun a h => h, fun qc _ => rfl⟩
    | cons i1 rest =>
      obtain ⟨hi1, hp1, hrest⟩ := itemsOK_destruct _ _ hok
      have hlen2 : rest.length ≤ n := by simpa using Nat.le_of_succ_le_succ hlen
      cases i1 with
      | litChar c =>
        by_cases hwin : ((c == '^') && win3 '/' rest) = true
        · rw [Bool.and_eq_true] at hwin
          have hc' : c = '^' := by simpa using hwin.1
          subst hc'
          obtain ⟨rest2, hsh⟩ := win3_shape '/' rest hwin.2
          subst hsh
          obtain ⟨_, _, hx1⟩ := itemsOK_destruct _ _ hrest
          obtain ⟨_, _, hx2⟩ := itemsOK_destruct _ _ hx1
          obtain ⟨_, _, hok2⟩ := itemsOK_destruct _ _ hx2
          have hlen3 : rest2.length ≤ n := by
            simp only [List.length_cons] at hlen
            omega
          obtain ⟨items2, hok2', htr, heq⟩ := ih rest2 hlen3 hok2
          refine ⟨repl2Items ++ items2, ?_, ?_, ?_⟩
          · simp [repl2Items, itemsOK, okItem, okPairO_lit, hok2']
          · intro a h
            simpa [repl2Items] using h
          · intro qc hq
            show listReplace needle2 repl2
                ('^' :: '\\' :: '*' :: '\\' :: '*' :: '/' :: flatQ qc rest2)
              = flatQ qc (repl2Items ++ items2)
            rw [listReplace_window needle2 repl2 '^' '/' (flatQ qc rest2) rfl]
            rw [heq qc hq, flatQ_append]
            rw [show flatQ qc repl2Items = repl2 from rfl]
        · have hwin' : ((c == '^') && win3 '/' rest) = false := by
            cases h : ((c == '^') && win3 '/' rest) with
            | false => rfl
            | true => exact absurd h hwin
          obtain ⟨items2, hok2', htr, heq⟩ := ih rest hlen2 hrest
          refine ⟨QItem.litChar c :: items2, ?_, ?_, ?_⟩
          · exact itemsOK_build _ _ hi1 (okPairO_lit c _) hok2'
          · intro a h
            exact h
          · intro qc hq
            rw [flatQ_cons]
            simp only [projQ, List.singleton_append]
            have hnp : needle2.isPrefixOf (c :: flatQ qc rest) = false := by
              have hst := flatQ_stars qc '/' hq (by decide) rest hrest
              by_cases hc : c = '^'
              · subst hc
                simp only [needle2, List.isPrefixOf, beq_self_eq_true, Bool.true_and]
                rw [hst]
                simpa using hwin'
              · simp [needle2, List.isPrefixOf, Ne.symm hc]
            rw [listReplace_skip1 _ _ _ _ hnp, heq qc hq, flatQ_cons]
            simp [projQ]
      | escPair c =>
        by_cases hwin : ((c == '^') && win3 '/' rest) = true
        · rw [Bool.and_eq_true] at hwin
          have hc' : c = '^' := by simpa using hwin.1
          subst hc'
          obtain ⟨rest2, hsh⟩ := win3_shape '/' rest hwin.2
          subst hsh
          obtain ⟨_, _, hx1⟩ := itemsOK_destruct _ _ hrest
          obtain ⟨_, _, hx2⟩ := itemsOK_destruct _ _ hx1
          obtain ⟨_, _, hok2⟩ := itemsOK_destruct _ _ hx2
          have hlen3 : rest2.length ≤ n := by
            simp only [List.length_cons] at hlen
            omega
          obtain ⟨items2, hok2', htr, heq⟩ := ih rest2 hlen3 hok2
          refine ⟨QItem.escPair '^' :: (repl2TailItems ++ items2), ?_, ?_, ?_⟩
          · refine itemsOK_build _ _ (by decide) ?_ ?_
            · simp [repl2TailItems, okPairO, okPair]
            · simp [repl2TailItems, itemsOK, okItem, okPairO_lit, hok2']
          · intro a h
            exact h
          · intro qc hq
            show listReplace needle2 repl2
                ('\\' :: '^' :: '\\' :: '*' :: '\\' :: '*' :: '/' :: flatQ qc rest2)
              = flatQ qc (QItem.escPair '^' :: (repl2TailItems ++ items2))
            have hnp1 : needle2.isPrefixOf
                ('\\' :: '^' :: '\\' :: '*' :: '\\' :: '*' :: '/' :: flatQ qc rest2)
                = false := by
              simp [needle2, List.isPrefixOf]
            rw [listReplace_skip1 _ _ _ _ hnp1]
            rw [listReplace_window needle2 repl2 '^' '/' (flatQ qc rest2) rfl]
            rw [heq qc hq]
            rw [flatQ_cons, flatQ_append]
            rw [show flatQ qc repl2TailItems = ['(', '.', '*', '/', ')', '?'] from rfl]
            rfl
        · have hcne : (c == '^') = true → win3 '/' rest = false := by
            intro hc
            cases h : win3 '/' rest with
            | false => rfl
            | true => exact absurd (by simp [hc, h]) hwin
          obtain ⟨items2, hok2', htr, heq⟩ := ih rest hlen2 hrest
          refine ⟨QItem.escPair c :: items2, ?_, ?_, ?_⟩
          · exact itemsOK_build _ _ hi1 (htr _ hp1) hok2'
          · intro a h
            exact h
          · intro qc hq
            rw [flatQ_cons]
            simp only [projQ, List.cons_append, List.nil_append]
            have hnp1 : needle2.isPrefixOf ('\\' :: c :: flatQ qc rest) = false := by
              simp [needle2, List.isPrefixOf]
            have hnp2 : needle2.isPrefixOf (c :: flatQ qc rest) = false := by
              have hst := flatQ_stars qc '/' hq (by decide) rest hrest
              by_cases hc : c = '^'
              · subst hc
                simp only [needle2, List.isPrefixOf, beq_self_eq_true, Bool.true_and]
                rw [hst]
                exact hcne rfl
              · simp [needle2, List.isPrefixOf, Ne.symm hc]
            rw [listReplace_skip2 _ _ _ _ _ hnp1 hnp2, heq qc hq, flatQ_cons]
            simp [projQ]
      | subPair =>
        obtain ⟨items2, hok2', htr, heq⟩ := ih rest hlen2 hrest
        refine ⟨QItem.subPair :: items2, ?_, ?_, ?_⟩
        · exact itemsOK_build _ _ rfl (htr _ hp1) hok2'
        · intro a h
          exact h
        · intro qc hq
          rw [flatQ_cons]
          simp only [projQ, List.cons_append, List.nil_append]
          have hnp1 : needle2.isPrefixOf ('\\' :: qc :: flatQ qc rest) = false := by
            simp [needle2, List.isPrefixOf]
          have hnp2 : needle2.isPrefixOf (qc :: flatQ qc rest) = false := by
            rcases hq with h | h <;> subst h <;> simp [needle2, List.isPrefixOf]
          rw [listReplace_skip2 _ _ _ _ _ hnp1 hnp2, heq qc hq, flatQ_cons]
          simp [projQ]

/-! ### Pass 3 acts identically on both sides -/

theorem pass3_sim : ∀ (n : Nat) (items : List QItem), items.length ≤ n →
    itemsOK items = true →
    ∃ items2 : List QItem, itemsOK items2 = true ∧
      (∀ a : QItem, okPairO a items.head? = true → okPairO a items2.head? = true) ∧
      (∀ qc : Char, (qc = '?' ∨ qc = '*') →
        listReplace needle3 repl3 (flatQ qc items) = flatQ qc items2) := by
  intro n
  induction n with
  | zero =>
    intro items hlen hok
    have hnil : items = [] := List.eq_nil_of_length_eq_zero (Nat.le_zero.mp hlen)
    subst hnil
    exact ⟨[], rfl, fun a h => h, fun qc _ => rfl⟩
  | succ n ih =>
    intro items hlen hok
    cases items with
    | nil => exact ⟨[], rfl, fun a h => h, fun qc _ => rfl⟩
    | cons i1 rest =>
      obtain ⟨hi1, hp1, hrest⟩ := itemsOK_destruct _ _ hok
      have hlen2 : rest.length ≤ n := by simpa using Nat.le_of_succ_le_succ hlen
      cases i1 with
      | litChar c =>
        by_cases hwin : ((c == '/') && win3 '$' rest) = true
        · rw [Bool.and_eq_true] at hwin
          have hc' : c = '/' := by simpa using hwin.1
          subst hc'
          obtain ⟨rest2, hsh⟩ := win3_shape '$' rest hwin.2
          subst hsh
          obtain ⟨_, _, hx1⟩ := itemsOK_destruct _ _ hrest
          obtain ⟨_, _, hx2⟩ := itemsOK_destruct _ _ hx1
          obtain ⟨_, _, hok2⟩ := itemsOK_destruct _ _ hx2
          have hlen3 : rest2.length ≤ n := by
            simp only [List.length_cons] at hlen
            omega
          obtain ⟨items2, hok2', htr, heq⟩ := ih rest2 hlen3 hok2
          refine ⟨repl3Items ++ items2, ?_, ?_, ?_⟩
          · simp [repl3Items, itemsOK, okItem, okPairO_lit, hok2']
          · intro a _
            have hx : okPair a (QItem.litChar '(') = true :=
              okPair_to_lit a '(' (by decide) (by decide)
            simpa [repl3Items, okPairO] using hx
          · intro qc hq
            show listReplace needle3 repl3
                ('/' :: '\\' :: '*' :: '\\' :: '*' :: '$' :: flatQ qc rest2)
              = flatQ qc (repl3Items ++ items2)
            rw [listReplace_window needle3 repl3 '/' '$' (flatQ qc rest2) rfl]
            rw [heq qc hq, flatQ_append]
            rw [show flatQ qc repl3Items = repl3 from rfl]
        · have hwin' : ((c == '/') && win3 '$' rest) = false := by
            cases h : ((c == '/') && win3 '$' rest) with
            | false => rfl
            | true => exact absurd h hwin
          obtain ⟨items2, hok2', htr, heq⟩ := ih rest hlen2 hrest
          refine ⟨QItem.litChar c :: items2, ?_, ?_, ?_⟩
          · exact itemsOK_build _ _ hi1 (okPairO_lit c _) hok2'
          · intro a h
            exact h
          · intro qc hq
            rw [flatQ_cons]
            simp only [projQ, List.singleton_append]
            have hnp : needle3.isPrefixOf (c :: flatQ qc rest) = false := by
              have hst := flatQ_stars qc '$' hq (by decide) rest hrest
              by_cases hc : c = '/'
              · subst hc
                simp only [needle3, List.isPrefixOf, beq_self_eq_true, Bool.true_and]
                rw [hst]
                simpa using hwin'
              · simp [needle3, List.isPrefixOf, Ne.symm hc]
            rw [listReplace_skip1 _ _ _ _ hnp, heq qc hq, flatQ_cons]
            simp [projQ]
      | escPair c =>
        have hcslash : (c == '/') = false := by simpa [okItem] using hi1
        have hc2 : c ≠ '/' := by simpa using hcslash
        obtain ⟨items2, hok2', htr, heq⟩ := ih rest hlen2 hrest
        refine ⟨QItem.escPair c :: items2, ?_, ?_, ?_⟩
        · exact itemsOK_build _ _ hi1 (htr _ hp1) hok2'
        · intro a h
          exact h
        · intro qc hq
          rw [flatQ_cons]
          simp only [projQ, List.cons_append, List.nil_append]
          have hnp1 : needle3.isPrefixOf ('\\' :: c :: flatQ qc rest) = false := by
            simp [needle3, List.isPrefixOf]
          have hnp2 : needle3.isPrefixOf (c :: flatQ qc rest) = false := by
            simp [needle3, List.isPrefixOf, Ne.symm hc2]
          rw [listReplace_skip2 _ _ _ _ _ hnp1 hnp2, heq qc hq, flatQ_cons]
          simp [projQ]
      | subPair =>
        obtain ⟨items2, hok2', htr, heq⟩ := ih rest hlen2 hrest
        refine ⟨QItem.subPair :: items2, ?_, ?_, ?_⟩
        · exact itemsOK_build _ _ rfl (htr _ hp1) hok2'
        · intro a h
          exact h
        · intro qc hq
          rw [flatQ_cons]
          simp only [projQ, List.cons_append, List.nil_append]
          have hnp1 : needle3.isPrefixOf ('\\' :: qc :: flatQ qc rest) = false := by
            simp [needle3, List.isPrefixOf]
          have hnp2 : needle3.isPrefixOf (qc :: flatQ qc rest) = false := by
            rcases hq with h | h <;> subst h <;> simp [needle3, List.isPrefixOf]
          rw [listReplace_skip2 _ _ _ _ _ hnp1 hnp2, heq qc hq, flatQ_cons]
          simp [projQ]

/-! ### Passes 4 and 5 resolve the two sides to the same text -/

theorem items4_cons (qc : Char) (it : QItem) (items : List QItem) :
    items4 qc (it :: items) = item4 qc it ++ items4 qc items := by
  simp [items4]

theorem items5_cons (qc : Char) (it : QItem) (items : List QItem) :
    items5 qc (it :: items) = item5 qc it ++ items5 qc items := by
  simp [items5]

theorem items5_append (qc : Char) (l1 l2 : List QItem) :
    items5 qc (l1 ++ l2) = items5 qc l1 ++ items5 qc l2 := by
  simp [items5]

/-- After an escaped backslash the discipline forbids a bare wildcard, so the
following text never begins with `*` or `?`. -/
theorem flatQ_head_not_wild (qc x : Char) (hx : x = '*' ∨ x = '?') (rest : List QItem)
    (hp : okPairO (QItem.escPair '\\') rest.head? = true) :
    ([x].isPrefixOf (flatQ qc rest)) = false := by
  cases rest with
  | nil => rfl
  | cons i r =>
    cases i with
    | litChar d =>
      have hp' : ((d == '*') || (d == '?')) = false := by
        have h2 := hp
        simp only [List.head?_cons, okPairO, okPair, beq_self_eq_true, Bool.true_and,
          Bool.not_eq_eq_eq_not, Bool.not_true] at h2
        exact h2
      have hd1 : d ≠ '*' := by
        intro h
        subst h
        simp at hp'
      have hd2 : d ≠ '?' := by
        intro h
        subst h
        simp at hp'
      rw [flatQ_cons]
      rcases hx with h | h <;> subst h <;>
        simp [projQ, List.isPrefixOf, Ne.symm hd1, Ne.symm hd2]
    | escPair d =>
      rw [flatQ_cons]
      rcases hx with h | h <;> subst h <;> simp [projQ, List.isPrefixOf]
    | subPair =>
      rw [flatQ_cons]
      rcases hx with h | h <;> subst h <;> simp [projQ, List.isPrefixOf]

theorem pass4_sim (qc : Char) (hq : qc = '?' ∨ qc = '*') :
    ∀ (n : Nat) (items : List QItem), items.length ≤ n → itemsOK items = true →
    listReplace needle4 repl45 (flatQ qc items) = flatQ qc (items4 qc items) := by
  intro n
  induction n with
  | zero =>
    intro items hlen _
    have hnil : items = [] := List.eq_nil_of_length_eq_zero (Nat.le_zero.mp hlen)
    subst hnil
    rfl
  | succ n ih =>
    intro items hlen hok
    cases items with
    | nil => rfl
    | cons i1 rest =>
      obtain ⟨hi1, hp1, hrest⟩ := itemsOK_destruct _ _ hok
      have hlen2 : rest.length ≤ n := by simpa using Nat.le_of_succ_le_succ hlen
      rw [items4_cons, flatQ_append]
      cases i1 with
      | litChar c =>
        have hc : c ≠ '\\' := by
          have h2 : (c == '\\') = false := by simpa [okItem] using hi1
          simpa using h2
        rw [flatQ_cons]
        simp only [projQ, List.singleton_append]
        rw [listReplace_skip1 _ _ _ _ (by simp [needle4, List.isPrefixOf, Ne.symm hc])]
        rw [ih rest hlen2 hrest]
        rfl
      | escPair c =>
        by_cases hcs : c = '*'
        · subst hcs
          rw [flatQ_cons]
          simp only [projQ, List.cons_append, List.nil_append]
          rw [listReplace_cons]
          have hcond : (!needle4.isEmpty && needle4.isPrefixOf
              ('\\' :: '*' :: flatQ qc rest)) = true := by
            simp [needle4, List.isPrefixOf]
          rw [if_pos hcond]
          show repl45 ++ listReplace needle4 repl45 (flatQ qc rest)
            = flatQ qc (item4 qc (QItem.escPair '*')) ++ flatQ qc (items4 qc rest)
          rw [ih rest hlen2 hrest]
          rfl
        · rw [flatQ_cons]
          simp only [projQ, List.cons_append, List.nil_append]
          have hnp1 : needle4.isPrefixOf ('\\' :: c :: flatQ qc rest) = false := by
            simp [needle4, List.isPrefixOf, Ne.symm hcs]
          have hnp2 : needle4.isPrefixOf (c :: flatQ qc rest) = false := by
            by_cases hbs : c = '\\'
            · subst hbs
              simp only [needle4, List.isPrefixOf, beq_self_eq_true, Bool.true_and]
              exact flatQ_head_not_wild qc '*' (Or.inl rfl) rest hp1
            · simp [needle4, List.isPrefixOf, Ne.symm hbs]
          rw [listReplace_skip2 _ _ _ _ _ hnp1 hnp2]
          rw [ih rest hlen2 hrest]
          rw [show item4 qc (QItem.escPair c) = [QItem.escPair c] from by
            simp [item4, hcs]]
          rfl
      | subPair =>
        rcases hq with hqv | hqv
        · subst hqv
          rw [flatQ_cons]
          simp only [projQ, List.cons_append, List.nil_append]
          have hnp1 : needle4.isPrefixOf ('\\' :: '?' :: flatQ '?' rest) = false := by
            simp [needle4, List.isPrefixOf]
          have hnp2 : needle4.isPrefixOf ('?' :: flatQ '?' rest) = false := by
            simp [needle4, List.isPrefixOf]
          rw [listReplace_skip2 _ _ _ _ _ hnp1 hnp2]
          rw [ih rest hlen2 hrest]
          rfl
        · subst hqv
          rw [flatQ_cons]
          simp only [projQ, List.cons_append, List.nil_append]
          rw [listReplace_cons]
          have hcond : (!needle4.isEmpty && needle4.isPrefixOf
              ('\\' :: '*' :: flatQ '*' rest)) = true := by
            simp [needle4, List.isPrefixOf]
          rw [if_pos hcond]
          show repl45 ++ listReplace needle4 repl45 (flatQ '*' rest)
            = flatQ '*' (item4 '*' QItem.subPair) ++ flatQ '*' (items4 '*' rest)
          rw [ih rest hlen2 hrest]
          rfl

theorem pass5_sim (qc : Char) (hq : qc = '?' ∨ qc = '*') :
    ∀ (n : Nat) (items : List QItem), items.length ≤ n → itemsOK items = true →
    listReplace needle5 repl45 (flatQ qc items) = flatQ qc (items5 qc items) := by
  intro n
  induction n with
  | zero =>
    intro items hlen _
    have hnil : items = [] := List.eq_nil_of_length_eq_zero (Nat.le_zero.mp hlen)
    subst hnil
    rfl
  | succ n ih =>
    intro items hlen hok
    cases items with
    | nil => rfl
    | cons i1 rest =>
      obtain ⟨hi1, hp1, hrest⟩ := itemsOK_destruct _ _ hok
      have hlen2 : rest.length ≤ n := by simpa using Nat.le_of_succ_le_succ hlen
      rw [items5_cons, flatQ_append]
      cases i1 with
      | litChar c =>
        have hc : c ≠ '\\' := by
          have h2 : (c == '\\') = false := by simpa [okItem] using hi1
          simpa using h2
        rw [flatQ_cons]
        simp only [projQ, List.singleton_append]
        rw [listReplace_skip1 _ _ _ _ (by simp [needle5, List.isPrefixOf, Ne.symm hc])]
        rw [ih rest hlen2 hrest]
        rfl
      | escPair c =>
        by_cases hcs : c = '?'
        · subst hcs
          rw [flatQ_cons]
          simp only [projQ, List.cons_append, List.nil_append]
          rw [listReplace_cons]
          have hcond : (!needle5.isEmpty && needle5.isPrefixOf
              ('\\' :: '?' :: flatQ qc rest)) = true := by
            simp [needle5, List.isPrefixOf]
          rw [if_pos hcond]
          show repl45 ++ listReplace needle5 repl45 (flatQ qc rest)
            = flatQ qc (item5 qc (QItem.escPair '?')) ++ flatQ qc (items5 qc rest)
          rw [ih rest hlen2 hrest]
          rfl
        · rw [flatQ_cons]
          simp only [projQ, List.cons_append, List.nil_append]
          have hnp1 : needle5.isPrefixOf ('\\' :: c :: flatQ qc rest) = false := by
            simp [needle5, List.isPrefixOf, Ne.symm hcs]
          have hnp2 : needle5.isPrefixOf (c :: flatQ qc rest) = false := by
            by_cases hbs : c = '\\'
            · subst hbs
              simp only [needle5, List.isPrefixOf, beq_self_eq_true, Bool.true_and]
              exact flatQ_head_not_wild qc '?' (Or.inr rfl) rest hp1
            · simp [needle5, List.isPrefixOf, Ne.symm hbs]
          rw [listReplace_skip2 _ _ _ _ _ hnp1 hnp2]
          rw [ih rest hlen2 hrest]
          rw [show item5 qc (QItem.escPair c) = [QItem.escPair c] from by
            simp [item5, hcs]]
          rfl
      | subPair =>
        rcases hq with hqv | hqv
        · subst hqv
          rw [flatQ_cons]
          simp only [projQ, List.cons_append, List.nil_append]
          rw [listReplace_cons]
          have hcond : (!needle5.isEmpty && needle5.isPrefixOf
              ('\\' :: '?' :: flatQ '?' rest)) = true := by
            simp [needle5, List.isPrefixOf]
          rw [if_pos hcond]
          show repl45 ++ listReplace needle5 repl45 (flatQ '?' rest)
            = flatQ '?' (item5 '?' QItem.subPair) ++ flatQ '?' (items5 '?' rest)
          rw [ih rest hlen2 hrest]
          rfl
        · subst hqv
          rw [flatQ_cons]
          simp only [projQ, List.cons_append, List.nil_append]
          have hnp1 : needle5.isPrefixOf ('\\' :: '*' :: flatQ '*' rest) = false := by
            simp [needle5, List.isPrefixOf]
          have hnp2 : needle5.isPrefixOf ('*' :: flatQ '*' rest) = false := by
            simp [needle5, List.isPrefixOf]
          rw [listReplace_skip2 _ _ _ _ _ hnp1 hnp2]
          rw [ih rest hlen2 hrest]
          rfl

theorem okPairO_items4 (qc : Char) (a : QItem) (rest : List QItem)
    (h : okPairO a rest.head? = true) : okPairO a ((items4 qc rest).head?) = true := by
  cases rest with
  | nil => simpa using h
  | cons b r =>
    rw [items4_cons]
    cases b with
    | litChar d => simpa [item4] using h
    | escPair d =>
      by_cases hd : d = '*'
      · subst hd
        have hx : okPair a (QItem.litChar '[') = true :=
          okPair_to_lit a '[' (by decide) (by decide)
        simpa [item4, repl45Items, okPairO] using hx
      · rw [show item4 qc (QItem.escPair d) = [QItem.escPair d] from by simp [item4, hd]]
        simpa using h
    | subPair =>
      by_cases hqc : qc = '*'
      · subst hqc
        have hx : okPair a (QItem.litChar '[') = true :=
          okPair_to_lit a '[' (by decide) (by decide)
        simpa [item4, repl45Items, okPairO] using hx
      · rw [show item4 qc QItem.subPair = [QItem.subPair] from by simp [item4, hqc]]
        simpa using h

theorem okPairO_items5 (qc : Char) (a : QItem) (rest : List QItem)
    (h : okPairO a rest.head? = true) : okPairO a ((items5 qc rest).head?) = true := by
  cases rest with
  | nil => simpa using h
  | cons b r =>
    rw [items5_cons]
    cases b with
    | litChar d => simpa [item5] using h
    | escPair d =>
      by_cases hd : d = '?'
      · subst hd
        have hx : okPair a (QItem.litChar '[') = true :=
          okPair_to_lit a '[' (by decide) (by decide)
        simpa [item5, repl45Items, okPairO] using hx
      · rw [show item5 qc (QItem.escPair d) = [QItem.escPair d] from by simp [item5, hd]]
        simpa using h
    | subPair =>
      by_cases hqc : qc = '?'
      · subst hqc
        have hx : okPair a (QItem.litChar '[') = true :=
          okPair_to_lit a '[' (by decide) (by decide)
        simpa [item5, repl45Items, okPairO] using hx
      · rw [show item5 qc QItem.subPair = [QItem.subPair] from by simp [item5, hqc]]
        simpa using h

theorem items4_ok (qc : Char) : ∀ items : List QItem, itemsOK items = true →
    itemsOK (items4 qc items) = true := by
  intro items
  induction items with
  | nil => intro _; rfl
  | cons a rest ih =>
    intro hok
    obtain ⟨hi1, hp1, hrest⟩ := itemsOK_destruct _ _ hok
    rw [items4_cons]
    cases a with
    | litChar c =>
      exact itemsOK_build _ _ hi1 (okPairO_lit c _) (ih hrest)
    | escPair c =>
      by_cases hc : c = '*'
      · subst hc
        simp [repl45Items, item4, itemsOK, okItem, okPairO_lit, ih hrest]
      · rw [show item4 qc (QItem.escPair c) = [QItem.escPair c] from by simp [item4, hc]]
        exact itemsOK_build _ _ hi1 (okPairO_items4 qc _ rest hp1) (ih hrest)
    | subPair =>
      by_cases hqc : qc = '*'
      · subst hqc
        simp [repl45Items, item4, itemsOK, okItem, okPairO_lit, ih hrest]
      · rw [show item4 qc QItem.subPair = [QItem.subPair] from by simp [item4, hqc]]
        exact itemsOK_build _ _ rfl (okPairO_items4 qc _ rest hp1) (ih hrest)

theorem items45_indep : ∀ items : List QItem,
    items5 '?' (items4 '?' items) = items5 '*' (items4 '*' items) := by
  intro items
  induction items with
  | nil => rfl
  | cons a rest ih =>
    rw [items4_cons, items4_cons, items5_append, items5_append, ih]
    congr 1
    cases a with
    | litChar c => rfl
    | escPair c =>
      by_cases hc : c = '*'
      · subst hc
        rfl
      · by_cases hc2 : c = '?'
        · subst hc2
          rfl
        · simp [item4, item5, items5, hc, hc2]
    | subPair => rfl

theorem items45_no_sub : ∀ items : List QItem,
    QItem.subPair ∉ items5 '*' (items4 '*' items) := by
  intro items
  induction items with
  | nil => simp [items4, items5]
  | cons a rest ih =>
    rw [items4_cons, items5_append]
    intro hmem
    rcases List.mem_append.mp hmem with h | h
    · cases a with
      | litChar c => simp [item4, item5, items5] at h
      | escPair c =>
        by_cases hc : c = '*'
        · subst hc
          simp [item4, item5, items5, repl45Items] at h
        · by_cases hc2 : c = '?'
          · subst hc2
            simp [item4, item5, items5, hc, repl45Items] at h
          · simp [item4, item5, items5, hc, hc2] at h
      | subPair => simp [item4, item5, items5, repl45Items] at h
    · exact ih h

theorem flatQ_no_sub (qc qc2 : Char) : ∀ items : List QItem,
    QItem.subPair ∉ items → flatQ qc items = flatQ qc2 items := by
  intro items
  induction items with
  | nil => intro _; rfl
  | cons a rest ih =>
    intro h
    rw [flatQ_cons, flatQ_cons, ih (fun hm => h (List.mem_cons_of_mem _ hm))]
    congr 1
    cases a with
    | litChar c => rfl
    | escPair c => rfl
    | subPair => exact absurd (List.mem_cons_self _ _) h

/-! ### Block decomposition of an escaped glob -/

theorem projQ_itemOf_q (c : Char) : projQ '?' (itemOf c) = escChar c := by
  by_cases hq : c = '?'
  · subst hq
    rfl
  · by_cases hs : isSpecial c = true
    · rw [show itemOf c = QItem.escPair c from by simp [itemOf, hq, hs],
        escChar_special c hs]
      rfl
    · rw [show itemOf c = QItem.litChar c from by simp [itemOf, hq, hs],
        escChar_plain c (by simpa using hs)]
      rfl

theorem projQ_itemOf_star (c : Char) :
    projQ '*' (itemOf c) = escChar (if c = '?' then '*' else c) := by
  by_cases hq : c = '?'
  · subst hq
    rfl
  · rw [if_neg hq]
    by_cases hs : isSpecial c = true
    · rw [show itemOf c = QItem.escPair c from by simp [itemOf, hq, hs],
        escChar_special c hs]
      rfl
    · rw [show itemOf c = QItem.litChar c from by simp [itemOf, hq, hs],
        escChar_plain c (by simpa using hs)]
      rfl

theorem flatQ_globItems_q (g : List Char) :
    flatQ '?' (globItems g) = '^' :: reEscape g ++ ['$'] := by
  rw [globItems, flatQ_cons]
  rw [show ('^' :: reEscape g ++ ['$']) = ['^'] ++ (reEscape g ++ ['$']) from rfl]
  congr 1
  induction g with
  | nil => rfl
  | cons c g2 ih =>
    rw [List.map_cons, List.cons_append, flatQ_cons, projQ_itemOf_q, reEscape_cons,
      List.append_assoc, ih]

theorem flatQ_globItems_star (g : List Char) :
    flatQ '*' (globItems g)
      = '^' :: reEscape (g.map (fun c => if c = '?' then '*' else c)) ++ ['$'] := by
  rw [globItems, flatQ_cons]
  rw [show ('^' :: reEscape (g.map (fun c => if c = '?' then '*' else c)) ++ ['$'])
      = ['^'] ++ (reEscape (g.map (fun c => if c = '?' then '*' else c)) ++ ['$']) from rfl]
  congr 1
  induction g with
  | nil => rfl
  | cons c g2 ih =>
    rw [List.map_cons, List.map_cons, List.cons_append, flatQ_cons, projQ_itemOf_star,
      reEscape_cons, List.append_assoc, ih]

theorem itemOf_okItem (c : Char) : okItem (itemOf c) = true := by
  by_cases hq : c = '?'
  · subst hq
    rfl
  · by_cases hs : isSpecial c = true
    · rw [show itemOf c = QItem.escPair c from by simp [itemOf, hq, hs]]
      have hcs : c ≠ '/' := by
        intro h
        subst h
        exact absurd hs (by decide)
      simp [okItem, hcs]
    · rw [show itemOf c = QItem.litChar c from by simp [itemOf, hq, hs]]
      have hcs : c ≠ '\\' := by
        intro h
        subst h
        exact hs (by decide)
      simp [okItem, hcs]

theorem itemOf_okPair (c d : Char)
    (h : ((c == '?' || d == '?') && isWild c && isWild d) = false) :
    okPair (itemOf c) (itemOf d) = true := by
  by_cases hcq : c = '?'
  · subst hcq
    rw [show itemOf '?' = QItem.subPair from rfl]
    by_cases hdq : d = '?'
    · subst hdq
      simp [isWild] at h
    · by_cases hds : d = '*'
      · subst hds
        simp [isWild] at h
      · by_cases hs : isSpecial d = true
        · rw [show itemOf d = QItem.escPair d from by simp [itemOf, hdq, hs]]
          simp [okPair, hds]
        · rw [show itemOf d = QItem.litChar d from by simp [itemOf, hdq, hs]]
          rfl
  · by_cases hdq : d = '?'
    · subst hdq
      rw [show itemOf '?' = QItem.subPair from rfl]
      by_cases hcs : c = '*'
      · subst hcs
        simp [isWild] at h
      · by_cases hs : isSpecial c = true
        · rw [show itemOf c = QItem.escPair c from by simp [itemOf, hcq, hs]]
          simp [okPair, hcs]
        · rw [show itemOf c = QItem.litChar c from by simp [itemOf, hcq, hs]]
          rfl
    · have hit1 : itemOf c = QItem.escPair c ∨ itemOf c = QItem.litChar c := by
        by_cases hs : isSpecial c = true
        · exact Or.inl (by simp [itemOf, hcq, hs])
        · exact Or.inr (by simp [itemOf, hcq, hs])
      have hit2 : itemOf d = QItem.escPair d ∨ itemOf d = QItem.litChar d := by
        by_cases hs : isSpecial d = true
        · exact Or.inl (by simp [itemOf, hdq, hs])
        · exact Or.inr (by simp [itemOf, hdq, hs])
      rcases hit1 with h1 | h1 <;> rcases hit2 with h2 | h2 <;> rw [h1, h2]
      · rfl
      · have hds : d ≠ '*' := by
          intro he
          subst he
          rw [show itemOf '*' = QItem.escPair '*' from rfl] at h2
          exact absurd h2 (by simp)
        simp [okPair, hds, hdq]
      · rfl
      · rfl

theorem globItems_tail_ok : ∀ g : List Char, qIsolated g = true →
    itemsOK (g.map itemOf ++ [QItem.litChar '$']) = true := by
  intro g
  induction g with
  | nil =>
    intro _
    decide
  | cons c g2 ih =>
    intro hq
    rw [List.map_cons, List.cons_append]
    refine itemsOK_build _ _ (itemOf_okItem c) ?_ ?_
    · cases g2 with
      | nil =>
        have hx : okPair (itemOf c) (QItem.litChar '$') = true :=
          okPair_to_lit (itemOf c) '$' (by decide) (by decide)
        simpa [okPairO] using hx
      | cons d g3 =>
        have hpair : ((c == '?' || d == '?') && isWild c && isWild d) = false := by
          cases hx : ((c == '?' || d == '?') && isWild c && isWild d) with
          | false => rfl
          | true => simp [qIsolated, hx] at hq
        have hx := itemOf_okPair c d hpair
        simpa [okPairO] using hx
    · apply ih
      cases g2 with
      | nil => rfl
      | cons d g3 =>
        have h2 := hq
        simp only [qIsolated, Bool.and_eq_true] at h2
        exact h2.2

theorem globItems_ok (g : List Char) (h : qIsolated g = true) :
    itemsOK (globItems g) = true := by
  rw [globItems]
  exact itemsOK_build _ _ (by decide) (okPairO_lit _ _) (globItems_tail_ok g h)

/-! ### Pattern equality for globs with isolated question marks -/

theorem compilePattern_replaceQmark (glob : String)
    (h : qIsolated glob.toList = true) :
    compilePattern (replaceQmark glob) = compilePattern glob := by
  have hok0 := globItems_ok glob.toList h
  obtain ⟨it1, hok1, _, heq1⟩ := pass1_sim (globItems glob.toList).length _ le_rfl hok0
  obtain ⟨it2, hok2, _, heq2⟩ := pass2_sim it1.length _ le_rfl hok1
  obtain ⟨it3, hok3, _, heq3⟩ := pass3_sim it2.length _ le_rfl hok2
  have h45 : ∀ qc, (qc = '?' ∨ qc = '*') →
      listReplace needle5 repl45 (listReplace needle4 repl45 (flatQ qc it3))
        = flatQ qc (items5 qc (items4 qc it3)) := by
    intro qc hq
    rw [pass4_sim qc hq it3.length it3 le_rfl hok3]
    exact pass5_sim qc hq (items4 qc it3).length _ le_rfl (items4_ok qc it3 hok3)
  have hfin : flatQ '?' (items5 '?' (items4 '?' it3))
      = flatQ '*' (items5 '*' (items4 '*' it3)) := by
    rw [items45_indep it3]
    exact flatQ_no_sub '?' '*' _ (items45_no_sub it3)
  unfold compilePattern
  rw [replaceQmark_toList]
  rw [show ('^' :: reEscape (glob.toList.map (fun c => if c = '?' then '*' else c)) ++ ['$'])
      = flatQ '*' (globItems glob.toList) from (flatQ_globItems_star glob.toList).symm]
  rw [show ('^' :: reEscape glob.toList ++ ['$'])
      = flatQ '?' (globItems glob.toList) from (flatQ_globItems_q glob.toList).symm]
  rw [heq1 '?' (Or.inl rfl), heq1 '*' (Or.inr rfl)]
  rw [heq2 '?' (Or.inl rfl), heq2 '*' (Or.inr rfl)]
  rw [heq3 '?' (Or.inl rfl), heq3 '*' (Or.inr rfl)]
  rw [h45 '?' (Or.inl rfl), h45 '*' (Or.inr rfl)]
  exact hfin.symm

/-! ## The bare `**` glob -/

theorem tokensMatch_star_singleton (p : List Char) :
    tokensMatch ['*'] p = p.all (fun d => !(d == '/')) := by
  induction p with
  | nil =>
    rw [tokensMatch_wild_nil '*' [] (by decide), tokensMatch_nil]
    rfl
  | cons d p2 ih =>
    rw [tokensMatch_wild_cons '*' d [] p2 (by decide), tokensMatch_nil, ih]
    cases p2 with
    | nil =>
      by_cases hd : d = '\n'
      · subst hd
        simp
      · simp [hd]
    | cons e p3 =>
      simp

theorem tokensMatch_star_star (p : List Char) :
    tokensMatch ['*', '*'] p = p.all (fun d => !(d == '/')) := by
  induction p with
  | nil =>
    rw [tokensMatch_wild_nil '*' ['*'] (by decide), tokensMatch_star_singleton]
  | cons d p2 ih =>
    rw [tokensMatch_wild_cons '*' d ['*'] p2 (by decide), tokensMatch_star_singleton, ih]
    simp

/-! ## Python-dict lemmas -/

theorem dictGet_insert_self {κ α : Type} [DecidableEq κ] (k : κ) (v : α)
    (d : List (κ × α)) : dictGet k (dictInsert k v d) = some v := by
  induction d with
  | nil => simp [dictInsert, dictGet]
  | cons e rest ih =>
    by_cases he : e.1 = k
    · simp [dictInsert, dictGet, he]
    · simp [dictInsert, dictGet, he, ih]

theorem dictGet_insert_ne {κ α : Type} [DecidableEq κ] (k k2 : κ) (v : α)
    (d : List (κ × α)) (h : k ≠ k2) :
    dictGet k2 (dictInsert k v d) = dictGet k2 d := by
  induction d with
  | nil => simp [dictInsert, dictGet, h]
  | cons e rest ih =>
    by_cases he : e.1 = k
    · simp [dictInsert, dictGet, he, h]
    · simp [dictInsert, dictGet, he, ih]

theorem dictGet_foldl_insert_of_not_mem {α : Type} (entries : List (String × α))
    (d : List (String × α)) (k : String) (h : ∀ e ∈ entries, e.1 ≠ k) :
    dictGet k (entries.foldl (fun acc e => dictInsert e.1 e.2 acc) d) = dictGet k d := by
  induction entries generalizing d with
  | nil => rfl
  | cons e rest ih =>
    simp only [List.foldl_cons]
    rw [ih _ (fun x hx => h x (List.mem_cons_of_mem e hx))]
    exact dictGet_insert_ne e.1 k e.2 d (h e (List.mem_cons_self e rest))

theorem dictGet_foldl_insert_last {α : Type} (l1 l2 : List (String × α))
    (d : List (String × α)) (k : String) (v : α) (h : ∀ e ∈ l2, e.1 ≠ k) :
    dictGet k ((l1 ++ (k, v) :: l2).foldl (fun acc e => dictInsert e.1 e.2 acc) d) =
      some v := by
  rw [List.foldl_append]
  simp only [List.foldl_cons]
  rw [dictGet_foldl_insert_of_not_mem l2 _ k h]
  exact dictGet_insert_self k v _

/-! ## Retry-loop scenarios -/

theorem rmtree_ok_after (out : Nat → RmtreeOutcome) (d : ℚ) (k : Nat)
    (hk : k < maxAttempts) (hperm : ∀ j, j < k → out j = .permissionError)
    (hok : out k = .ok) :
    rmtreeWithRetry out d =
      (.removed (k + 1), (List.range k).map (fun a => d * ((a : ℚ) + 2))) := by
  simp only [maxAttempts] at hk
  interval_cases k
  · simp only [rmtreeWithRetry, maxAttempts, rmtreeLoop, hok]
    simp
  · have h0 := hperm 0 (by omega)
    simp only [rmtreeWithRetry, maxAttempts, rmtreeLoop, h0, hok]
    norm_num [List.range_succ]
  · have h0 := hperm 0 (by omega); have h1 := hperm 1 (by omega)
    simp only [rmtreeWithRetry, maxAttempts, rmtreeLoop, h0, h1, hok]
    norm_num [List.range_succ]
  · have h0 := hperm 0 (by omega); have h1 := hperm 1 (by omega)
    have h2 := hperm 2 (by omega)
    simp only [rmtreeWithRetry, maxAttempts, rmtreeLoop, h0, h1, h2, hok]
    norm_num [List.range_succ]
  · have h0 := hperm 0 (by omega); have h1 := hperm 1 (by omega)
    have h2 := hperm 2 (by omega); have h3 := hperm 3 (by omega)
    simp only [rmtreeWithRetry, maxAttempts, rmtreeLoop, h0, h1, h2, h3, hok]
    norm_num [List.range_succ]

theorem rmtree_other_after (out : Nat → RmtreeOutcome) (d : ℚ) (k : Nat)
    (hk : k < maxAttempts) (hperm : ∀ j, j < k → out j = .permissionError)
    (hother : out k = .otherError) :
    rmtreeWithRetry out d =
      (.raisedOther (k + 1), (List.range k).map (fun a => d * ((a : ℚ) + 2))) := by
  simp only [maxAttempts] at hk
  interval_cases k
  · simp only [rmtreeWithRetry, maxAttempts, rmtreeLoop, hother]
    simp
  · have h0 := hperm 0 (by omega)
    simp only [rmtreeWithRetry, maxAttempts, rmtreeLoop, h0, hother]
    norm_num [List.range_succ]
  · have h0 := hperm 0 (by omega); have h1 := hperm 1 (by omega)
    simp only [rmtreeWithRetry, maxAttempts, rmtreeLoop, h0, h1, hother]
    norm_num [List.range_succ]
  · have h0 := hperm 0 (by omega); have h1 := hperm 1 (by omega)
    have h2 := hperm 2 (by omega)
    simp only [rmtreeWithRetry, maxAttempts, rmtreeLoop, h0, h1, h2, hother]
    norm_num [List.range_succ]
  · have h0 := hperm 0 (by omega); have h1 := hperm 1 (by omega)
    have h2 := hperm 2 (by omega); have h3 := hperm 3 (by omega)
    simp only [rmtreeWithRetry, maxAttempts, rmtreeLoop, h0, h1, h2, h3, hother]
    norm_num [List.range_succ]

theorem rmtree_all_perm (out : Nat → RmtreeOutcome) (d : ℚ)
    (h : ∀ j, j < maxAttempts → out j = .permissionError) :
    rmtreeWithRetry out d =
      (.raisedPermission maxAttempts,
        (List.range maxAttempts).map (fun a => d * ((a : ℚ) + 2))) := by
  have h0 := h 0 (by decide)
  have h1 := h 1 (by decide)
  have h2 := h 2 (by decide)
  have h3 := h 3 (by decide)
  have h4 := h 4 (by decide)
  simp only [rmtreeWithRetry, maxAttempts]
  simp only [rmtreeLoop, h0, h1, h2, h3, h4]
  norm_num [List.range_succ]

theorem rmtree_all_perm_sleep_sum (out : Nat → RmtreeOutcome) (d : ℚ)
    (h : ∀ j, j < maxAttempts → out j = .permissionError) :
    (rmtreeWithRetry out d).2.sum = 20 * d := by
  rw [rmtree_all_perm out d h]
  simp only [maxAttempts]
  norm_num [List.range_succ]
  ring

/-! ## Hardlink-group-preserving copy: persistence and invariant -/

theorem hl_step_copied_persist (e : CopyEntry) (st : HardlinkCopyState)
    (k : Nat × Nat) (dp : String) (h : dictGet k st.copiedInodes = some dp) :
    dictGet k (copyPreservingHardlinkGroups e st).copiedInodes = some dp := by
  unfold copyPreservingHardlinkGroups
  cases hx : dictGet (e.dev, e.ino) st.copiedInodes with
  | some prev => simpa [hx] using h
  | none =>
    have hk : (e.dev, e.ino) ≠ k := by
      intro he
      rw [he] at hx
      rw [hx] at h
      exact Option.noConfusion h
    simpa [hx, dictGet_insert_ne _ _ _ _ hk] using h

theorem hl_fold_copied_persist (l : List CopyEntry) :
    ∀ (st : HardlinkCopyState) (k : Nat × Nat) (dp : String),
    dictGet k st.copiedInodes = some dp →
    dictGet k (copyAllPreservingGroups l st).copiedInodes = some dp := by
  induction l with
  | nil => intro st k dp h; exact h
  | cons e rest ih =>
    intro st k dp h
    exact ih _ k dp (hl_step_copied_persist e st k dp h)

theorem hl_step_destIno_preserve (e : CopyEntry) (st : HardlinkCopyState)
    (p : String) (h : e.destPath ≠ p) :
    dictGet p (copyPreservingHardlinkGroups e st).destIno = dictGet p st.destIno := by
  unfold copyPreservingHardlinkGroups
  cases hx : dictGet (e.dev, e.ino) st.copiedInodes with
  | some prev => simp [hx, dictGet_insert_ne _ _ _ _ h]
  | none => simp [hx, dictGet_insert_ne _ _ _ _ h]

theorem hl_fold_destIno_preserve (l : List CopyEntry) :
    ∀ (st : HardlinkCopyState) (p : String), (∀ e ∈ l, e.destPath ≠ p) →
    dictGet p (copyAllPreservingGroups l st).destIno = dictGet p st.destIno := by
  induction l with
  | nil => intro st p _; rfl
  | cons e rest ih =>
    intro st p h
    rw [show copyAllPreservingGroups (e :: rest) st
          = copyAllPreservingGroups rest (copyPreservingHardlinkGroups e st) from rfl]
    rw [ih _ p (fun x hx => h x (List.mem_cons_of_mem e hx))]
    exact hl_step_destIno_preserve e st p (h e (List.mem_cons_self e rest))

theorem hl_step_nextIno_mono (e : CopyEntry) (st : HardlinkCopyState) :
    st.nextIno ≤ (copyPreservingHardlinkGroups e st).nextIno := by
  unfold copyPreservingHardlinkGroups
  cases hx : dictGet (e.dev, e.ino) st.copiedInodes with
  | some prev => simp [hx]
  | none => simp [hx]

theorem hl_step_destIno_self_none (e : CopyEntry) (st : HardlinkCopyState)
    (hx : dictGet (e.dev, e.ino) st.copiedInodes = none) :
    dictGet e.destPath (copyPreservingHardlinkGroups e st).destIno = some st.nextIno := by
  unfold copyPreservingHardlinkGroups
  rw [hx]
  exact dictGet_insert_self _ _ _

theorem hl_step_destIno_self_some (e : CopyEntry) (st : HardlinkCopyState) (prev : String)
    (hx : dictGet (e.dev, e.ino) st.copiedInodes = some prev) :
    dictGet e.destPath (copyPreservingHardlinkGroups e st).destIno =
      some ((dictGet prev st.destIno).getD 0) := by
  unfold copyPreservingHardlinkGroups
  rw [hx]
  exact dictGet_insert_self _ _ _

theorem hl_step_copied_some (e : CopyEntry) (st : HardlinkCopyState) (prev : String)
    (hx : dictGet (e.dev, e.ino) st.copiedInodes = some prev) :
    (copyPreservingHardlinkGroups e st).copiedInodes = st.copiedInodes := by
  unfold copyPreservingHardlinkGroups
  rw [hx]

theorem hl_step_copied_none (e : CopyEntry) (st : HardlinkCopyState)
    (hx : dictGet (e.dev, e.ino) st.copiedInodes = none) :
    (copyPreservingHardlinkGroups e st).copiedInodes =
      dictInsert (e.dev, e.ino) e.destPath st.copiedInodes := by
  unfold copyPreservingHardlinkGroups
  rw [hx]

theorem hl_step_copied_self_none (e : CopyEntry) (st : HardlinkCopyState)
    (hx : dictGet (e.dev, e.ino) st.copiedInodes = none) :
    dictGet (e.dev, e.ino) (copyPreservingHardlinkGroups e st).copiedInodes =
      some e.destPath := by
  rw [hl_step_copied_none e st hx]
  exact dictGet_insert_self _ _ _

theorem hl_step_nextIno_none (e : CopyEntry) (st : HardlinkCopyState)
    (hx : dictGet (e.dev, e.ino) st.copiedInodes = none) :
    (copyPreservingHardlinkGroups e st).nextIno = st.nextIno + 1 := by
  unfold copyPreservingHardlinkGroups
  rw [hx]

theorem hl_fold_inv (startIno : Nat) : ∀ (l : List CopyEntry)
    (st : HardlinkCopyState) (paths : List String),
    startIno ≤ st.nextIno →
    (∀ k dp, dictGet k st.copiedInodes = some dp →
      dp ∈ paths ∧ ∃ v, dictGet dp st.destIno = some v ∧ startIno ≤ v) →
    (∀ e ∈ l, e.destPath ∉ paths) →
    ((l.map (fun e => e.destPath)).Nodup) →
    startIno ≤ (copyAllPreservingGroups l st).nextIno ∧
    (∀ k dp, dictGet k (copyAllPreservingGroups l st).copiedInodes = some dp →
      dp ∈ paths ++ l.map (fun e => e.destPath) ∧
      ∃ v, dictGet dp (copyAllPreservingGroups l st).destIno = some v ∧ startIno ≤ v) := by
  intro l
  induction l with
  | nil =>
    intro st paths h1 h2 _ _
    refine ⟨h1, ?_⟩
    intro k dp h
    rcases h2 k dp h with ⟨hm, hv⟩
    exact ⟨by simpa using hm, hv⟩
  | cons e rest ih =>
    intro st paths h1 h2 h3 h4
    rw [show copyAllPreservingGroups (e :: rest) st
          = copyAllPreservingGroups rest (copyPreservingHardlinkGroups e st) from rfl]
    have hnotin : e.destPath ∉ paths := h3 e (List.mem_cons_self e rest)
    have h4' : e.destPath ∉ rest.map (fun x => x.destPath) ∧
        (rest.map (fun x => x.destPath)).Nodup := by
      rw [List.map_cons, List.nodup_cons] at h4
      exact h4
    have hrest3 : ∀ x ∈ rest, x.destPath ∉ paths ++ [e.destPath] := by
      intro x hx
      simp only [List.mem_append, List.mem_singleton]
      rintro (hp | hp)
      · exact h3 x (List.mem_cons_of_mem e hx) hp
      · exact h4'.1 (by
          have := List.mem_map_of_mem (fun y => y.destPath) hx
          simpa [hp] using this)
    have hstep1 : startIno ≤ (copyPreservingHardlinkGroups e st).nextIno :=
      le_trans h1 (hl_step_nextIno_mono e st)
    have hstep2 : ∀ k dp,
        dictGet k (copyPreservingHardlinkGroups e st).copiedInodes = some dp →
        dp ∈ paths ++ [e.destPath] ∧
        ∃ v, dictGet dp (copyPreservingHardlinkGroups e st).destIno = some v ∧
          startIno ≤ v := by
      intro k dp h
      cases hx : dictGet (e.dev, e.ino) st.copiedInodes with
      | some prev =>
        rw [hl_step_copied_some e st prev hx] at h
        rcases h2 k dp h with ⟨hm, v, hv, hge⟩
        have hne : e.destPath ≠ dp := by
          intro hcontra
          rw [hcontra] at hnotin
          exact hnotin hm
        refine ⟨List.mem_append_left _ hm, v, ?_, hge⟩
        rw [hl_step_destIno_preserve e st dp hne]
        exact hv
      | none =>
        rw [hl_step_copied_none e st hx] at h
        by_cases hk : (e.dev, e.ino) = k
        · rw [← hk, dictGet_insert_self] at h
          have hdp : dp = e.destPath := by
            injection h with h
            exact h.symm
          subst hdp
          refine ⟨List.mem_append_right _ (List.mem_singleton.mpr rfl), st.nextIno, ?_, h1⟩
          exact hl_step_destIno_self_none e st hx
        · rw [dictGet_insert_ne _ _ _ _ hk] at h
          rcases h2 k dp h with ⟨hm, v, hv, hge⟩
          have hne : e.destPath ≠ dp := by
            intro hcontra
            rw [hcontra] at hnotin
            exact hnotin hm
          refine ⟨List.mem_append_left _ hm, v, ?_, hge⟩
          rw [hl_step_destIno_preserve e st dp hne]
          exact hv
    rcases ih (copyPreservingHardlinkGroups e st) (paths ++ [e.destPath])
      hstep1 hstep2 hrest3 h4'.2 with ⟨hA, hB⟩
    refine ⟨hA, ?_⟩
    intro k dp h
    rcases hB k dp h with ⟨hm, hv⟩
    refine ⟨?_, hv⟩
    simpa [List.append_assoc] using hm

theorem nodup_split_facts (l1p l2p l3p : List String) (xp yp : String)
    (h : (l1p ++ xp :: l2p ++ yp :: l3p).Nodup) :
    (xp ∉ l1p) ∧ (∀ q ∈ l2p, q ≠ xp) ∧ (yp ≠ xp) ∧
    (∀ q ∈ l2p, ∀ p ∈ l1p, q ≠ p) ∧
    (∀ q ∈ l3p, q ≠ xp) ∧ (∀ q ∈ l3p, q ≠ yp) ∧ (∀ q ∈ l2p, q ≠ yp) := by
  obtain ⟨hA, hB, hAB⟩ := List.pairwise_append.mp h
  obtain ⟨hA1, hA2, hA12⟩ := List.pairwise_append.mp hA
  obtain ⟨hx2, hPWl2⟩ := List.pairwise_cons.mp hA2
  obtain ⟨hy, _⟩ := List.pairwise_cons.mp hB
  refine ⟨?_, ?_, ?_, ?_, ?_, ?_, ?_⟩
  · intro hm
    exact hA12 xp hm xp (List.mem_cons_self _ _) rfl
  · intro q hq heq
    exact hx2 q hq heq.symm
  · intro heq
    exact hAB xp (List.mem_append_right _ (List.mem_cons_self _ _)) yp
      (List.mem_cons_self _ _) heq.symm
  · intro q hq p hp heq
    exact hA12 p hp q (List.mem_cons_of_mem _ hq) heq.symm
  · intro q hq heq
    exact hAB xp (List.mem_append_right _ (List.mem_cons_self _ _)) q
      (List.mem_cons_of_mem _ hq) heq.symm
  · intro q hq heq
    exact hy q hq heq.symm
  · intro q hq heq
    exact hAB q (List.mem_append_right _ (List.mem_cons_of_mem _ hq)) yp
      (List.mem_cons_self _ _) heq

theorem hl_pair_share (startIno : Nat) (l1 l2 l3 : List CopyEntry) (x y : CopyEntry)
    (hdev : x.dev = y.dev) (hino : x.ino = y.ino)
    (hnodup : ((l1 ++ x :: l2 ++ y :: l3).map (fun e => e.destPath)).Nodup) :
    ∃ v, dictGet x.destPath (copyAllPreservingGroups (l1 ++ x :: l2 ++ y :: l3)
            (initialHardlinkCopyState startIno)).destIno = some v ∧
         dictGet y.destPath (copyAllPreservingGroups (l1 ++ x :: l2 ++ y :: l3)
            (initialHardlinkCopyState startIno)).destIno = some v ∧
         startIno ≤ v := by
  have hmap : (l1 ++ x :: l2 ++ y :: l3).map (fun e => e.destPath)
      = (l1.map (fun e => e.destPath)) ++ x.destPath :: (l2.map (fun e => e.destPath))
        ++ y.destPath :: (l3.map (fun e => e.destPath)) := by
    simp
  rw [hmap] at hnodup
  obtain ⟨f1, f2, f3, f4, f5, f6, f7⟩ := nodup_split_facts _ _ _ _ _ hnodup
  have hsplit : copyAllPreservingGroups (l1 ++ x :: l2 ++ y :: l3)
      (initialHardlinkCopyState startIno)
      = copyAllPreservingGroups l3
          (copyPreservingHardlinkGroups y
            (copyAllPreservingGroups l2
              (copyPreservingHardlinkGroups x
                (copyAllPreservingGroups l1 (initialHardlinkCopyState startIno))))) := by
    simp [copyAllPreservingGroups, List.foldl_append]
  rw [hsplit]
  set st1 := copyAllPreservingGroups l1 (initialHardlinkCopyState startIno) with hst1
  have hl1nodup : (l1.map (fun e => e.destPath)).Nodup := by
    have := List.Nodup.of_append_left (List.Nodup.of_append_left hnodup)
    exact this
  obtain ⟨hn1, hinv1⟩ := hl_fold_inv startIno l1 (initialHardlinkCopyState startIno) []
    le_rfl
    (by intro k dp h; simp [dictGet, initialHardlinkCopyState] at h)
    (by intro e _; simp)
    hl1nodup
  rw [← hst1] at hn1 hinv1
  have key : ∃ dp v,
      dictGet (x.dev, x.ino) (copyPreservingHardlinkGroups x st1).copiedInodes = some dp ∧
      dictGet dp (copyPreservingHardlinkGroups x st1).destIno = some v ∧
      dictGet x.destPath (copyPreservingHardlinkGroups x st1).destIno = some v ∧
      startIno ≤ v ∧ (dp ∈ l1.map (fun e => e.destPath) ∨ dp = x.destPath) := by
    cases hx : dictGet (x.dev, x.ino) st1.copiedInodes with
    | none =>
      refine ⟨x.destPath, st1.nextIno, hl_step_copied_self_none x st1 hx, ?_, ?_, hn1,
        Or.inr rfl⟩
      · exact hl_step_destIno_self_none x st1 hx
      · exact hl_step_destIno_self_none x st1 hx
    | some dp =>
      obtain ⟨hdpmem, v, hdv, hvge⟩ := hinv1 _ _ hx
      have hdpmem2 : dp ∈ l1.map (fun e => e.destPath) := by simpa using hdpmem
      have hne : x.destPath ≠ dp := by
        intro he
        rw [← he] at hdpmem2
        exact f1 hdpmem2
      refine ⟨dp, v, ?_, ?_, ?_, hvge, Or.inl hdpmem2⟩
      · rw [hl_step_copied_some x st1 dp hx]
        exact hx
      · rw [hl_step_destIno_preserve x st1 dp hne]
        exact hdv
      · rw [hl_step_destIno_self_some x st1 dp hx, hdv]
        rfl
  obtain ⟨dp, v, hc2, hd2dp, hd2x, hvge, hdpcase⟩ := key
  set st2 := copyPreservingHardlinkGroups x st1 with hst2
  have hdpne_l2 : ∀ e ∈ l2, e.destPath ≠ dp := by
    intro e he
    rcases hdpcase with hm | hm
    · exact f4 e.destPath (List.mem_map_of_mem _ he) dp hm
    · rw [hm]
      exact f2 e.destPath (List.mem_map_of_mem _ he)
  have hxne_l2 : ∀ e ∈ l2, e.destPath ≠ x.destPath := by
    intro e he
    exact f2 e.destPath (List.mem_map_of_mem _ he)
  have hc3 : dictGet (x.dev, x.ino)
      (copyAllPreservingGroups l2 st2).copiedInodes = some dp :=
    hl_fold_copied_persist l2 st2 _ dp hc2
  have hd3dp : dictGet dp (copyAllPreservingGroups l2 st2).destIno = some v := by
    rw [hl_fold_destIno_preserve l2 st2 dp hdpne_l2]
    exact hd2dp
  have hd3x : dictGet x.destPath (copyAllPreservingGroups l2 st2).destIno = some v := by
    rw [hl_fold_destIno_preserve l2 st2 x.destPath hxne_l2]
    exact hd2x
  set st3 := copyAllPreservingGroups l2 st2 with hst3
  have hc3y : dictGet (y.dev, y.ino) st3.copiedInodes = some dp := by
    rw [← hdev, ← hino]
    exact hc3
  have hd4y : dictGet y.destPath (copyPreservingHardlinkGroups y st3).destIno = some v := by
    rw [hl_step_destIno_self_some y st3 dp hc3y, hd3dp]
    rfl
  have hd4x : dictGet x.destPath (copyPreservingHardlinkGroups y st3).destIno = some v := by
    rw [hl_step_destIno_preserve y st3 x.destPath f3]
    exact hd3x
  set st4 := copyPreservingHardlinkGroups y st3 with hst4
  have hxne_l3 : ∀ e ∈ l3, e.destPath ≠ x.destPath := by
    intro e he
    exact f5 e.destPath (List.mem_map_of_mem _ he)
  have hyne_l3 : ∀ e ∈ l3, e.destPath ≠ y.destPath := by
    intro e he
    exact f6 e.destPath (List.mem_map_of_mem _ he)
  refine ⟨v, ?_, ?_, hvge⟩
  · rw [hl_fold_destIno_preserve l3 st4 x.destPath hxne_l3]
    exact hd4x
  · rw [hl_fold_destIno_preserve l3 st4 y.destPath hyne_l3]
    exact hd4y

theorem all_not_slash_eq_not_contains (l : List Char) :
    l.all (fun d => !(d == '/')) = !(l.contains '/') := by
  induction l with
  | nil => rfl
  | cons c rest ih =>
    by_cases hc : c = '/'
    · subst hc
      simp [ih]
    · simp [ih, hc, Ne.symm hc]

/-! ## Claims -/

/-- C1: `MatchPredicate.matches` evaluates in a fixed order: any matching
force-include accepts immediately; otherwise a non-empty include list must
have a match or the path is rejected; otherwise any matching exclude rejects;
otherwise the path is accepted.  With includes=["*.so"], excludes=["*.so"],
force_includes=["keep.so"], the path "keep.so" is included and "other.so" is
excluded; an empty include list means every path passes the include step. -/
theorem c1_match_predicate_order :
    (∀ (mp : MatchPredicate) (path : String),
      mp.force_includes.any (fun g => globMatches g path) = true →
      mp.mpMatches path = true) ∧
    (∀ (mp : MatchPredicate) (path : String),
      mp.force_includes.any (fun g => globMatches g path) = false →
      mp.includes ≠ [] →
      mp.includes.any (fun g => globMatches g path) = false →
      mp.mpMatches path = false) ∧
    (∀ (mp : MatchPredicate) (path : String),
      mp.force_includes.any (fun g => globMatches g path) = false →
      (mp.includes = [] ∨ mp.includes.any (fun g => globMatches g path) = true) →
      mp.excludes.any (fun g => globMatches g path) = true →
      mp.mpMatches path = false) ∧
    (∀ (mp : MatchPredicate) (path : String),
      mp.force_includes.any (fun g => globMatches g path) = false →
      (mp.includes = [] ∨ mp.includes.any (fun g => globMatches g path) = true) →
      mp.excludes.any (fun g => globMatches g path) = false →
      mp.mpMatches path = true) ∧
    (MatchPredicate.mk ["*.so"] ["*.so"] ["keep.so"]).mpMatches ("keep.so") = true ∧
    (MatchPredicate.mk ["*.so"] ["*.so"] ["keep.so"]).mpMatches ("other.so") = false := by
  refine ⟨?_, ?_, ?_, ?_, by decide, by decide⟩
  · intro mp path h
    simp [MatchPredicate.mpMatches, h]
  · intro mp path h hne hnone
    have hie : mp.includes.isEmpty = false := by
      cases hmp : mp.includes with
      | nil => exact absurd hmp hne
      | cons a l => rfl
    simp [MatchPredicate.mpMatches, h, hie, hnone]
  · intro mp path h hinc hexc
    rcases hinc with hinc | hinc
    · simp [MatchPredicate.mpMatches, h, hinc, hexc]
    · simp [MatchPredicate.mpMatches, h, hinc, hexc]
  · intro mp path h hinc hexc
    rcases hinc with hinc | hinc
    · simp [MatchPredicate.mpMatches, h, hinc, hexc]
    · simp [MatchPredicate.mpMatches, h, hinc, hexc]

/-- C1 witness: the include-whitelist rejection applied at a concrete
predicate and path. -/
theorem c1_match_predicate_order_witness :
    (MatchPredicate.mk ["*.so"] [] []).mpMatches ("x.txt") = false :=
  c1_match_predicate_order.2.1 (MatchPredicate.mk ["*.so"] [] []) ("x.txt")
    (by decide) (by decide) (by decide)

/-- C2 counterexample: for the `**`-free glob "a" the compiled matcher accepts
the path "a\n" (Python `$` also matches just before one trailing newline), but
"a\n" does not equal the glob with wildcards expanded, so "matches(p) iff p
equals the glob with `*`/`?` expanded" fails at glob "a", path "a\n". -/
theorem c2_counterexample :
    hasDoubleStar (String.toList ("a")) = false ∧
    globMatches ("a") ("a\n") = true ∧
    specGlobEquals ("a") ("a\n") = false := by
  refine ⟨by decide, by decide, by decide⟩

/-- C2 (amended): the compiled matcher is anchored whole-path; for every glob
without `**`, `matches(p)` is true iff `p` equals the glob with `*`/`?`
expanded to `[^/]*` at the same segment positions, or does so after dropping
one trailing newline (Python `$` semantics); and the stated `**` examples
hold. -/
theorem c2_glob_translation :
    (∀ glob path : String, hasDoubleStar glob.toList = false →
      globMatches glob path =
        (specGlobEquals glob path ||
          ((path.toList.getLast? == some '\n') &&
            specExpand glob.toList path.toList.dropLast))) ∧
    globMatches ("*.txt") ("a.txt") = true ∧
    globMatches ("*.txt") ("dir/a.txt") = false ∧
    globMatches ("a/**/b") ("a/b") = true ∧
    globMatches ("a/**/b") ("a/x/b") = true ∧
    globMatches ("a/**/b") ("a/x/y/b") = true ∧
    globMatches ("a/**/b") ("ab") = false ∧
    globMatches ("**/b") ("b") = true ∧
    globMatches ("**/b") ("x/b") = true ∧
    globMatches ("a/**") ("a") = true ∧
    globMatches ("a/**") ("a/x/y") = true := by
  refine ⟨globMatches_noDoubleStar, by decide, by decide, by decide, by decide,
    by decide, by decide, by decide, by decide, by decide, by decide⟩

/-- C2 witness: the amended translation law applied at a concrete glob and
path. -/
theorem c2_glob_translation_witness :
    globMatches ("*.txt") ("a.txt") =
      (specGlobEquals ("*.txt") ("a.txt") ||
        (((String.toList ("a.txt")).getLast? == some '\n') &&
          specExpand (String.toList ("*.txt")) ((String.toList ("a.txt")).dropLast))) :=
  c2_glob_translation.1 ("*.txt") ("a.txt") (by decide)

/-- C3: under the hardlink-group-preserving strategy, the first encounter of a
source `(st_dev, st_ino)` key copies (allocating a fresh destination inode)
and records the destination path under the key; a later encounter hardlinks
to the recorded destination instead of copying; consequently two source files
sharing one inode yield destination files sharing one inode with each other
but with none of the source files. -/
theorem c3_hardlink_group_preserving :
    (∀ (e : CopyEntry) (st : HardlinkCopyState),
      dictGet (e.dev, e.ino) st.copiedInodes = none →
      copyPreservingHardlinkGroups e st =
        { copiedInodes := dictInsert (e.dev, e.ino) e.destPath st.copiedInodes,
          destIno := dictInsert e.destPath st.nextIno st.destIno,
          nextIno := st.nextIno + 1,
          ops := st.ops ++ [.plainCopy e.srcPath e.destPath] }) ∧
    (∀ (e : CopyEntry) (st : HardlinkCopyState) (prev : String),
      dictGet (e.dev, e.ino) st.copiedInodes = some prev →
      copyPreservingHardlinkGroups e st =
        { copiedInodes := st.copiedInodes,
          destIno := dictInsert e.destPath ((dictGet prev st.destIno).getD 0) st.destIno,
          nextIno := st.nextIno,
          ops := st.ops ++ [.internalHardlink prev e.destPath] }) ∧
    (∀ (startIno : Nat) (l1 l2 l3 : List CopyEntry) (x y : CopyEntry),
      x.dev = y.dev → x.ino = y.ino →
      ((l1 ++ x :: l2 ++ y :: l3).map (fun e => e.destPath)).Nodup →
      (∀ e ∈ l1 ++ x :: l2 ++ y :: l3, e.ino < startIno) →
      ∃ v, dictGet x.destPath (copyAllPreservingGroups (l1 ++ x :: l2 ++ y :: l3)
              (initialHardlinkCopyState startIno)).destIno = some v ∧
           dictGet y.destPath (copyAllPreservingGroups (l1 ++ x :: l2 ++ y :: l3)
              (initialHardlinkCopyState startIno)).destIno = some v ∧
           ∀ e ∈ l1 ++ x :: l2 ++ y :: l3, v ≠ e.ino) := by
  refine ⟨?_, ?_, ?_⟩
  · intro e st hx
    unfold copyPreservingHardlinkGroups
    rw [hx]
  · intro e st prev hx
    unfold copyPreservingHardlinkGroups
    rw [hx]
  · intro startIno l1 l2 l3 x y hdev hino hnodup hfresh
    obtain ⟨v, hvx, hvy, hvge⟩ := hl_pair_share startIno l1 l2 l3 x y hdev hino hnodup
    refine ⟨v, hvx, hvy, ?_⟩
    intro e he
    have := hfresh e he
    omega

/-- C3 witness: two single-inode source files and otherwise empty
surroundings. -/
theorem c3_hardlink_group_preserving_witness :
    ∃ v, dictGet ("d1")
          (copyAllPreservingGroups
            ([] ++ CopyEntry.mk ("s1") ("d1") 0 5 :: [] ++ CopyEntry.mk ("s2") ("d2") 0 5 :: [])
            (initialHardlinkCopyState 100)).destIno = some v ∧
        dictGet ("d2")
          (copyAllPreservingGroups
            ([] ++ CopyEntry.mk ("s1") ("d1") 0 5 :: [] ++ CopyEntry.mk ("s2") ("d2") 0 5 :: [])
            (initialHardlinkCopyState 100)).destIno = some v ∧
        ∀ e ∈ [] ++ CopyEntry.mk ("s1") ("d1") 0 5 :: [] ++ CopyEntry.mk ("s2") ("d2") 0 5 :: [],
          v ≠ e.ino :=
  c3_hardlink_group_preserving.2.2 100 [] [] []
    (CopyEntry.mk ("s1") ("d1") 0 5) (CopyEntry.mk ("s2") ("d2") 0 5)
    rfl rfl (by decide) (by decide)

/-- C4: with the default hardlink-or-copy strategy, a destination that already
exists with the source's inode is skipped with no filesystem operation, so a
re-run of `copy_to` with `remove_dest=false` over an already-hardlinked
destination leaves the destination state (inodes included) unchanged and
performs nothing that can raise. -/
theorem c4_skip_already_hardlinked :
    ∀ (removeDest isWindows destIsSymlink : Bool) (i : Nat)
      (copiedPrev : Option String) (src dest : String) (st : DestState),
      copyRegularFileOps false removeDest isWindows (some i) i destIsSymlink
        copiedPrev src dest = [] ∧
      applyFileOps st (copyRegularFileOps false removeDest isWindows (some i) i
        destIsSymlink copiedPrev src dest) = st := by
  intro removeDest isWindows destIsSymlink i copiedPrev src dest st
  have hops : copyRegularFileOps false removeDest isWindows (some i) i destIsSymlink
      copiedPrev src dest = [] := by
    simp [copyRegularFileOps]
  exact ⟨hops, by rw [hops]; rfl⟩

/-- C5: destination removal retries `shutil.rmtree` up to 5 attempts with
sleep `delay × (attempt + 2)` after each `PermissionError`; success stops the
loop, any other exception propagates immediately without retrying, and a
`PermissionError` on the fifth attempt is re-raised. -/
theorem c5_rmtree_retry :
    (∀ (out : Nat → RmtreeOutcome) (d : ℚ) (k : Nat),
      k < maxAttempts → (∀ j, j < k → out j = .permissionError) → out k = .ok →
      rmtreeWithRetry out d =
        (.removed (k + 1), (List.range k).map (fun a => d * ((a : ℚ) + 2)))) ∧
    (∀ (out : Nat → RmtreeOutcome) (d : ℚ) (k : Nat),
      k < maxAttempts → (∀ j, j < k → out j = .permissionError) →
      out k = .otherError →
      rmtreeWithRetry out d =
        (.raisedOther (k + 1), (List.range k).map (fun a => d * ((a : ℚ) + 2)))) ∧
    (∀ (out : Nat → RmtreeOutcome) (d : ℚ),
      (∀ j, j < maxAttempts → out j = .permissionError) →
      rmtreeWithRetry out d =
        (.raisedPermission maxAttempts,
          (List.range maxAttempts).map (fun a => d * ((a : ℚ) + 2)))) :=
  ⟨rmtree_ok_after, rmtree_other_after, rmtree_all_perm⟩

/-- C5 witness: two permission errors followed by success. -/
theorem c5_rmtree_retry_witness :
    rmtreeWithRetry (fun j => if j < 2 then .permissionError else .ok) 1 =
      (.removed 3, (List.range 2).map (fun a => (1 : ℚ) * ((a : ℚ) + 2))) :=
  c5_rmtree_retry.1 (fun j => if j < 2 then .permissionError else .ok) 1 2
    (by decide) (by intro j hj; interval_cases j <;> rfl) (by rfl)

/-- C6 counterexample: at the class base delay of 0.2 s, the all-failures
total synchronous sleep is 4 s = 20 × base delay, which is not approximately
4.5 × base delay (= 0.9 s) even within a factor of two. -/
theorem c6_counterexample :
    (rmtreeWithRetry (fun _ => .permissionError) retryDelaySeconds).2.sum
        = 20 * retryDelaySeconds ∧
    20 * retryDelaySeconds = 4 ∧
    ¬((rmtreeWithRetry (fun _ => .permissionError) retryDelaySeconds).2.sum
        ≤ 2 * ((9 / 2) * retryDelaySeconds)) := by
  have hall := rmtree_all_perm (fun _ => RmtreeOutcome.permissionError)
    retryDelaySeconds (fun _ _ => rfl)
  refine ⟨?_, ?_, ?_⟩
  · rw [hall]
    norm_num [maxAttempts, List.range_succ, retryDelaySeconds]
  · norm_num [retryDelaySeconds]
  · rw [hall]
    norm_num [maxAttempts, List.range_succ, retryDelaySeconds]

/-- C6 (amended): when every one of the 5 attempts fails with a permission
error, the total synchronous sleep is the sum over the 5 attempts of
`base_delay × (attempt + 2)`, and this total equals `20 × base_delay` (not
approximately `4.5 × base_delay`). -/
theorem c6_total_sleep (out : Nat → RmtreeOutcome) (d : ℚ)
    (h : ∀ j, j < maxAttempts → out j = .permissionError) :
    (rmtreeWithRetry out d).2.sum =
      ((List.range maxAttempts).map (fun a => d * ((a : ℚ) + 2))).sum ∧
    (rmtreeWithRetry out d).2.sum = 20 * d := by
  constructor
  · rw [rmtree_all_perm out d h]
  · exact rmtree_all_perm_sleep_sum out d h

/-- C6 witness: the amended total-sleep law at base delay 1. -/
theorem c6_total_sleep_witness :
    (rmtreeWithRetry (fun _ => .permissionError) 1).2.sum =
      ((List.range maxAttempts).map (fun a => (1 : ℚ) * ((a : ℚ) + 2))).sum ∧
    (rmtreeWithRetry (fun _ => .permissionError) 1).2.sum = 20 * 1 :=
  c6_total_sleep (fun _ => .permissionError) 1 (fun _ _ => rfl)

/-- C7 counterexample: replacing each `?` of the glob "??/b" by `*` yields
"**/b", whose compiled matcher treats the new `**` as a recursive wildcard;
the two matchers disagree on the path "b". -/
theorem c7_counterexample :
    replaceQmark ("??/b") = ("**/b") ∧
    globMatches ("??/b") ("b") = false ∧
    globMatches (replaceQmark ("??/b")) ("b") = true := by
  refine ⟨by decide, by decide, by decide⟩

/-- C7 (amended): for every glob in which no `?` is adjacent to a `*` or to
another `?` (so that the replacement cannot create a new `**` form), the
matcher compiled from the glob and the matcher compiled from the glob with
every `?` replaced by `*` accept exactly the same paths — recursive `**`
segments included: `?` matches any run of non-separator characters, not
exactly one character. -/
theorem c7_qmark_same_as_star (glob path : String)
    (h : qIsolated glob.toList = true) :
    globMatches (replaceQmark glob) path = globMatches glob path := by
  unfold globMatches RecursiveGlobPattern.ofGlob RecursiveGlobPattern.rgpMatches
  rw [compilePattern_replaceQmark glob h]

/-- C7 witness: the amended law at a concrete glob containing both a
recursive `**` segment and a `?`. -/
theorem c7_qmark_same_as_star_witness :
    globMatches (replaceQmark ("a/**/x?y.t")) ("a/b/c/xABy.t")
      = globMatches ("a/**/x?y.t") ("a/b/c/xABy.t") :=
  c7_qmark_same_as_star ("a/**/x?y.t") ("a/b/c/xABy.t") (by decide)

/-- C8: `add_basedir` assignments are last-writer-wins: after indexing `t1`
and then `t2`, every relative path present in the scan of `t2` maps to `t2`'s
entry for it (under unique relative paths in `t2`'s scan), regardless of what
`t1` put there; `add_entry` likewise overwrites. -/
theorem c8_last_writer_wins :
    (∀ (t1 t2 : List (String × FsNode)) (rp : String) (e1 : FsNode),
      ((scanChildren t2 ("")).map (fun x => x.1)).Nodup →
      (rp, e1) ∈ scanChildren t1 ("") →
      (∃ e2, (rp, e2) ∈ scanChildren t2 ("")) →
      ∃ e2, dictGet rp (addBasedir (addBasedir [] t1) t2) = some e2 ∧
        (rp, e2) ∈ scanChildren t2 ("")) ∧
    (∀ (all : List (String × FsNode)) (rp : String) (e : FsNode),
      dictGet rp (addEntry all rp e) = some e) := by
  constructor
  · intro t1 t2 rp e1 hnodup _ he2
    obtain ⟨e2, he2⟩ := he2
    obtain ⟨s, t, hst⟩ := List.append_of_mem he2
    have htail : ∀ q ∈ t, q.1 ≠ rp := by
      have hsuffix : ((rp, e2) :: t).map (fun x => x.1) <:+
          (scanChildren t2 ("")).map (fun x => x.1) := by
        rw [hst]
        simp
      have hnd2 : (((rp, e2) :: t).map (fun x => x.1)).Nodup :=
        List.Nodup.sublist hsuffix.sublist hnodup
      rw [List.map_cons, List.nodup_cons] at hnd2
      intro q hq heq
      exact hnd2.1 (by
        have := List.mem_map_of_mem (fun x => x.1) hq
        simpa [heq] using this)
    refine ⟨e2, ?_, he2⟩
    unfold addBasedir
    rw [hst]
    exact dictGet_foldl_insert_last s t _ rp e2 htail
  · intro all rp e
    exact dictGet_insert_self rp e all

/-- C8 witness: layering two concrete trees sharing the relative path "a". -/
theorem c8_last_writer_wins_witness :
    ∃ e2, dictGet ("a")
        (addBasedir (addBasedir [] [(("a"), FsNode.file 1), (("b"), FsNode.file 2)])
          [(("a"), FsNode.file 3)]) = some e2 ∧
      (("a"), e2) ∈ scanChildren [(("a"), FsNode.file 3)] ("") :=
  c8_last_writer_wins.1 [(("a"), FsNode.file 1), (("b"), FsNode.file 2)]
    [(("a"), FsNode.file 3)] ("a") (FsNode.file 1)
    (by simp [scanChildren, scanNode])
    (by simp [scanChildren, scanNode])
    ⟨FsNode.file 3, by simp [scanChildren, scanNode]⟩

/-- C9: `_copy_symlink` unlinks an existing destination first only when
`remove_dest` is false, then creates parent directories and a fresh symlink
carrying the source link's unresolved target string; it never dereferences or
copies through the link, and materializing with `remove_dest=true` leaves the
destination holding an unresolved symlink with the identical target string. -/
theorem c9_symlink_identical_target :
    (∀ (target dest : String) (destExists destIsSymlink : Bool),
      copySymlinkOps target dest false destExists destIsSymlink =
        (if destExists || destIsSymlink then [.unlinkDest dest] else []) ++
          [.mkdirParents dest, .makeSymlink target dest]) ∧
    (∀ (target dest : String) (destExists destIsSymlink : Bool),
      copySymlinkOps target dest true destExists destIsSymlink =
        [.mkdirParents dest, .makeSymlink target dest]) ∧
    (∀ (target dest : String) (removeDest destExists destIsSymlink : Bool)
       (st : DestState),
      dictGet dest (applyFileOps st (copySymlinkOps target dest removeDest destExists
        destIsSymlink)).entries = some (.symlinkEntry target)) ∧
    (∀ (target dest : String) (removeDest destExists destIsSymlink : Bool)
       (s d : String) (op : FileOp),
      op ∈ copySymlinkOps target dest removeDest destExists destIsSymlink →
      op ≠ .plainCopy s d ∧ op ≠ .hardlinkFromSource s d ∧
        op ≠ .internalHardlink s d) := by
  refine ⟨?_, ?_, ?_, ?_⟩
  · intro target dest destExists destIsSymlink
    simp [copySymlinkOps]
  · intro target dest destExists destIsSymlink
    simp [copySymlinkOps]
  · intro target dest removeDest destExists destIsSymlink st
    by_cases h : (!removeDest && (destExists || destIsSymlink)) = true
    · simp [copySymlinkOps, h, applyFileOps, applyFileOp, dictGet_insert_self]
    · simp [copySymlinkOps, h, applyFileOps, applyFileOp, dictGet_insert_self]
  · intro target dest removeDest destExists destIsSymlink s d op hop
    by_cases h : (!removeDest && (destExists || destIsSymlink)) = true
    · simp [copySymlinkOps, h] at hop
      rcases hop with rfl | rfl | rfl <;> refine ⟨by simp, by simp, by simp⟩
    · simp [copySymlinkOps, h] at hop
      rcases hop with rfl | rfl <;> refine ⟨by simp, by simp, by simp⟩

/-- C9 witness: the no-dereference clause at a concrete symlink operation. -/
theorem c9_symlink_identical_target_witness :
    FileOp.mkdirParents ("a/c") ≠ FileOp.plainCopy ("s") ("d") ∧
    FileOp.mkdirParents ("a/c") ≠ FileOp.hardlinkFromSource ("s") ("d") ∧
    FileOp.mkdirParents ("a/c") ≠ FileOp.internalHardlink ("s") ("d") :=
  c9_symlink_identical_target.2.2.2 ("b.txt") ("a/c") true false false ("s") ("d")
    (FileOp.mkdirParents ("a/c")) (by decide)

/-- C10: a `**` outside the three recognized positions is not recursive: the
glob consisting solely of `**` compiles to `^[^/]*[^/]*$` and matches exactly
the paths that contain no `/`. -/
theorem c10_bare_doublestar (path : String) :
    globMatches ("**") path = !(path.toList.contains '/') := by
  unfold globMatches RecursiveGlobPattern.ofGlob RecursiveGlobPattern.rgpMatches
  rw [show compilePattern ("**") = '^' :: (expandToks ['*', '*'] ++ ['$']) from by decide]
  rw [reMatch_caret]
  simp only [Bool.true_and]
  rw [reMatch_expandToks]
  rw [show (['*', '*'] : List Char) = String.toList ("**") from rfl]
  rw [show String.toList ("**") = ['*', '*'] from rfl]
  rw [tokensMatch_star_star]
  exact all_not_slash_eq_not_contains path.toList
